import Mathlib

/-!
Verification development for the mapiproxy repository (a MAPI protocol
inspection proxy written in Rust).  The Rust sources are shallowly embedded:
pure fragments become Lean functions, stateful code becomes explicit state
passing, machine integers become `Nat` with explicit wrap-around where the
Rust code can overflow, and panicking operations return `Option`.
-/

namespace MProxy

/-! ## Basic helpers: bytes, characters, decimal and hex rendering -/

/-- ASCII decimal digit test (Rust `char::to_digit(10)` succeeds). -/
def isDigitChar (c : Char) : Bool := '0' ≤ c && c ≤ '9'

/-- Value of an ASCII decimal digit. -/
def digitVal (c : Char) : Nat := c.toNat - '0'.toNat

/-- Hex digit value as accepted by Rust `char::to_digit(16)`:
decimal digits plus `a`-`f` and `A`-`F`. -/
def hexVal (c : Char) : Option Nat :=
  if isDigitChar c then some (digitVal c)
  else if 'a' ≤ c && c ≤ 'f' then some (10 + (c.toNat - 'a'.toNat))
  else if 'A' ≤ c && c ≤ 'F' then some (10 + (c.toNat - 'A'.toNat))
  else none

/-- The lowercase hex digit characters, as emitted by Rust `{:x}` formatting. -/
def hexDigitLower (n : Nat) : Char :=
  "0123456789abcdef".toList.getD n '0'

/-- The uppercase hex digit characters, as emitted by Rust `{:X}` formatting. -/
def hexDigitUpper (n : Nat) : Char :=
  "0123456789ABCDEF".toList.getD n '0' 

/-- Rust `{:02X}` formatting of a byte (two uppercase hex digits). -/
def hex2Upper (n : Nat) : List Char := [hexDigitUpper (n / 16), hexDigitUpper (n % 16)]

/-- Decimal rendering of a `Nat`, digit list, as Rust `Display` for integers. -/
def natToDec (n : Nat) : List Char :=
  if h : n < 10 then [hexDigitLower n]
  else natToDec (n / 10) ++ [hexDigitLower (n % 10)]
  decreasing_by exact Nat.div_lt_self (Nat.lt_of_lt_of_le (by norm_num) (Nat.le_of_not_lt h)) (by norm_num)

/-- Lowercase hex rendering of a `Nat` without leading zeros,
as Rust `{:x}` formatting. -/
def natToHex (n : Nat) : List Char :=
  if h : n < 16 then [hexDigitLower n]
  else natToHex (n / 16) ++ [hexDigitLower (n % 16)]
  decreasing_by exact Nat.div_lt_self (Nat.lt_of_lt_of_le (by norm_num) (Nat.le_of_not_lt h)) (by norm_num)

/-! ## src/pcap/mod.rs — `parse_pcap_file` signature dispatch (claim C3)

`parse_pcap_file` reads exactly four bytes with `read_exact`, preloads them
back into a buffered reader, and dispatches on the signature.  The two
branch parsers live in the external `pcap_file` crate; the embedding records
which branch was selected and which byte stream was handed to it. -/

/-- Outcome of the signature dispatch in `parse_pcap_file`. -/
inductive PcapBranch
  /-- `parse_legacy_pcap` was selected; carries the stream handed to it. -/
  | legacy (stream : List Nat)
  /-- `parse_pcap_ng` was selected; carries the stream handed to it. -/
  | ng (stream : List Nat)
  deriving DecidableEq, Repr

/-- Embedding of `parse_pcap_file` (src/pcap/mod.rs lines 27-52) up to the
dispatch: read 4 signature bytes (error if the stream is shorter, as
`read_exact` fails), rebuild the full stream, and select a branch;
unknown signatures produce the `bail!` message naming the four bytes. -/
def parse_pcap_file (bytes : List Nat) : Except (List Char) PcapBranch :=
  match bytes with
  | b0 :: b1 :: b2 :: b3 :: rest =>
    let stream := b0 :: b1 :: b2 :: b3 :: rest
    if b0 = 0xD4 ∧ b1 = 0xC3 ∧ b2 = 0xB2 ∧ b3 = 0xA1 then .ok (.legacy stream)
    else if b0 = 0xA1 ∧ b1 = 0xB2 ∧ b2 = 0xB3 ∧ b3 = 0xD4 then .ok (.legacy stream)
    else if b0 = 0x0A ∧ b1 = 0x0D ∧ b2 = 0x0D ∧ b3 = 0x0A then .ok (.ng stream)
    else .error ("Unknown pcap file signature ".toList ++ hex2Upper b0 ++ [' '] ++
      hex2Upper b1 ++ [' '] ++ hex2Upper b2 ++ [' '] ++ hex2Upper b3)
  | _ => .error "failed to fill whole buffer".toList

/-! ## src/main.rs — `When`, `-o`/`--color` interaction (claim C5) -/

/-- The `When` flag value (src/main.rs lines 51-56). -/
inductive When
  | always
  | auto
  | never
  deriving DecidableEq, Repr

/-- `When::evaluate` (src/main.rs lines 72-78); `Auto` consults whether
stdout is a terminal, passed in as a parameter. -/
def When.evaluate (w : When) (stdoutIsTerminal : Bool) : Bool :=
  match w with
  | .always => true
  | .never => false
  | .auto => stdoutIsTerminal

/-- `When::override_auto` (src/main.rs lines 80-84): replace the value only
when it is currently `Auto`. -/
def When.override_auto (w : When) (v : When) : When :=
  match w with
  | .auto => v
  | _ => w

/-- Where `mymain` sends the rendered output. -/
inductive OutDest
  | file (path : List Char)
  | stdout
  deriving DecidableEq, Repr

/-- Embedding of the output/color selection in `mymain`
(src/main.rs lines 158-172): with `-o PATH` the output goes to the file and
`colors.override_auto(When::Never)` runs; afterwards `colors.evaluate()`
decides whether the VT100 color table is used. -/
def outputConfig (outputFile : Option (List Char)) (colors : When)
    (stdoutIsTerminal : Bool) : OutDest × Bool :=
  match outputFile with
  | some p => (.file p, ((colors.override_auto .never).evaluate stdoutIsTerminal))
  | none => (.stdout, colors.evaluate stdoutIsTerminal)

/-! ## src/main.rs — `run_proxy` event channel (claim C4)

`run_proxy` creates `std::sync::mpsc::sync_channel(500)` and installs the
handler closure `move |event| { let timestamp = ...; let _ =
send_events.send((timestamp, event)); }`.  `SyncSender::send` blocks while
the bounded queue is full and returns `Err(SendError)` exactly when the
receiver has disconnected; the closure discards that `Result`. -/

/-- State of a `std::sync::mpsc` bounded channel, events abstract. -/
structure SyncChannel (α : Type) where
  queue : List α
  bound : Nat
  receiverAlive : Bool

/-- `sync_channel(500)` as created by `run_proxy` (src/main.rs line 199). -/
def eventChannel (α : Type) : SyncChannel α :=
  { queue := [], bound := 500, receiverAlive := true }

/-- `SyncSender::send`: enqueue when the receiver is connected (a full queue
blocks the sender until space is available, which this pure model folds into
the eventual enqueue), error carrying the value back when the receiver has
disconnected. -/
def SyncChannel.send (ch : SyncChannel α) (x : α) :
    Except α (SyncChannel α) :=
  if ch.receiverAlive then .ok { ch with queue := ch.queue ++ [x] }
  else .error x

/-- The `run_proxy` handler closure (src/main.rs lines 200-203):
`let _ = send_events.send((timestamp, event))` — the send result is
discarded; the closure returns normally in both cases and signals nothing
to the proxy engine. -/
def runProxyHandler (ch : SyncChannel α) (x : α) : SyncChannel α :=
  match ch.send x with
  | .ok ch2 => ch2
  | .error _ => ch

/-! ## src/mapi/mod.rs — `dump_frame` text/binary classification (claim C9) -/

/-- `Accumulator::is_scary` (src/mapi/mod.rs lines 366-373): true iff some
byte below 0x20 is neither LF nor TAB. -/
def is_scary (data : List Nat) : Bool :=
  data.any (fun b => b < 0x20 && b ≠ 10 && b ≠ 9)

/-- UTF-8 continuation byte (0x80..0xBF). -/
def utf8Cont (b : Nat) : Bool := 0x80 ≤ b && b ≤ 0xBF

/-- Modelled from the behavior of `std::str::from_utf8` (external standard
library call made by `dump_frame`): well-formed UTF-8 per the standard
table — no overlong encodings, no surrogates, nothing above U+10FFFF. -/
def validUtf8 : List Nat → Bool
  | [] => true
  | b :: rest =>
    if b < 0x80 then validUtf8 rest
    else if b < 0xC2 then false
    else if b ≤ 0xDF then
      match rest with
      | c1 :: r => utf8Cont c1 && validUtf8 r
      | [] => false
    else if b ≤ 0xEF then
      match rest with
      | c1 :: c2 :: r =>
        (if b = 0xE0 then 0xA0 ≤ c1 && c1 ≤ 0xBF
         else if b = 0xED then 0x80 ≤ c1 && c1 ≤ 0x9F
         else utf8Cont c1) && utf8Cont c2 && validUtf8 r
      | _ => false
    else if b ≤ 0xF4 then
      match rest with
      | c1 :: c2 :: c3 :: r =>
        (if b = 0xF0 then 0x90 ≤ c1 && c1 ≤ 0xBF
         else if b = 0xF4 then 0x80 ≤ c1 && c1 ≤ 0x8F
         else utf8Cont c1) && utf8Cont c2 && utf8Cont c3 && validUtf8 r
      | _ => false
    else false

/-- The `is_binary` decision in `Accumulator::dump_frame`
(src/mapi/mod.rs lines 303-304):
`self.force_binary || self.is_scary(data) || std::str::from_utf8(data).is_err()`. -/
def dumpFrameIsBinary (force_binary : Bool) (data : List Nat) : Bool :=
  force_binary || is_scary data || !validUtf8 data

/-- The `format` label put on the frame header line by `dump_frame`
(src/mapi/mod.rs line 306). -/
def dumpFrameFormat (force_binary : Bool) (data : List Nat) : String :=
  if dumpFrameIsBinary force_binary data then "binary" else "text"

/-! ## src/headtail.rs — the head/tail abbreviating writer

The writer is generic over `W: io::Write`; the embedding fixes the sink to
an infallible byte accumulator (`out : List Nat`), so the `io::Result`
returns of the Rust methods can only signal panics, modelled as `Option`.
Buffer capacities are tracked because `make_room` consults them. -/

/-- A Rust `Vec<u8>`: contents plus current allocation capacity.  `reserve`
growth is modelled as at-least-doubling (the `RawVec` amortized policy). -/
structure Buf where
  data : List Nat
  cap : Nat
  deriving Repr, DecidableEq

/-- `Vec::len`. -/
def Buf.len (b : Buf) : Nat := b.data.length

/-- Capacity after reserving room for `need` total elements. -/
def growCap (cap need : Nat) : Nat := if need ≤ cap then cap else max (2 * cap) need

/-- `Vec::push`. -/
def Buf.push (b : Buf) (x : Nat) : Buf := ⟨b.data ++ [x], growCap b.cap (b.len + 1)⟩

/-- `Vec::extend_from_slice`. -/
def Buf.extend (b : Buf) (xs : List Nat) : Buf :=
  ⟨b.data ++ xs, growCap b.cap (b.len + xs.length)⟩

/-- `Vec::clear` (keeps the allocation). -/
def Buf.clear (b : Buf) : Buf := ⟨[], b.cap⟩

/-- `mem::take` on a `Vec` leaves `Vec::default()` (no allocation). -/
def Buf.empty : Buf := ⟨[], 0⟩

/-- `Vec::drain(0..k)` with the drained items dropped. -/
def Buf.drainTo (b : Buf) (k : Nat) : Buf := ⟨b.data.drop k, b.cap⟩

/-- `TailState` (src/headtail.rs lines 27-47). -/
structure TailState where
  /-- The head bytes set aside while processing the tail. -/
  head : Buf
  /-- Start offsets of the lines currently forming the tail (a ring). -/
  lines : List Nat
  /-- Index in `lines` of the oldest still relevant line. -/
  oldest_idx : Nat
  /-- Number of newlines seen while in tail mode. -/
  newlines : Nat
  /-- Number of tail lines to print. -/
  ntail : Nat
  deriving Repr, DecidableEq

/-- `TailState::line` (src/headtail.rs lines 55-57); Rust indexing panics
out of bounds, the embedding totalizes with default 0 and theorems carry
the in-bounds invariant instead. -/
def TailState.line (ts : TailState) (i : Nat) : Nat :=
  ts.lines.getD ((ts.oldest_idx + i) % ts.lines.length) 0

/-- `TailState::oldest_line`. -/
def TailState.oldest_line (ts : TailState) : Nat := ts.line 0

/-- `TailState::newest_line`. -/
def TailState.newest_line (ts : TailState) : Nat := ts.line (ts.lines.length - 1)

/-- `TailState::newline` (src/headtail.rs lines 75-81). -/
def TailState.newline (ts : TailState) (pos : Nat) : TailState :=
  { ts with
    lines := ts.lines.set ts.oldest_idx pos,
    oldest_idx := (ts.oldest_idx + 1) % ts.lines.length,
    newlines := ts.newlines + 1 }

/-- `State` (src/headtail.rs lines 15-25). -/
inductive HTState
  | passthrough
  | head (lines_left : Nat) (ntail : Nat)
  | tail (ts : TailState)
  deriving Repr, DecidableEq

/-- `HeadTail<W>` with the sink inlined as the byte list `out`. -/
structure HeadTail where
  out : List Nat
  buf : Buf
  state : HTState
  aux1 : Buf
  aux2 : List Nat
  deriving Repr, DecidableEq

/-- `HeadTail::with_capacity` (src/headtail.rs lines 89-99). -/
def HeadTail.with_capacity (cap : Nat) : HeadTail :=
  { out := [], buf := ⟨[], cap⟩, state := .passthrough, aux1 := ⟨[], cap⟩, aux2 := [] }

/-- `HeadTail::new` uses a 32 KiB capacity. -/
def HeadTail.new : HeadTail := HeadTail.with_capacity (4 * 8192)

/-- `HeadTail::flush` (src/headtail.rs lines 128-143): write out the buffer
currently holding the head (the active buffer outside tail mode, the set
aside head snapshot in tail mode); the emptiness test in the source only
skips a no-op write. -/
def HeadTail.flush (ht : HeadTail) : HeadTail :=
  match ht.state with
  | .tail ts =>
    { ht with out := ht.out ++ ts.head.data, state := .tail { ts with head := ts.head.clear } }
  | _ => { ht with out := ht.out ++ ht.buf.data, buf := ht.buf.clear }

/-- `HeadTail::compact` (src/headtail.rs lines 145-165). -/
def HeadTail.compact (ht : HeadTail) : HeadTail :=
  match ht.state with
  | .tail ts =>
    let tail_start := ts.oldest_line
    if tail_start = 0 then ht
    else
      { ht with
        buf := ht.buf.drainTo tail_start,
        state := .tail { ts with lines := ts.lines.map (fun p => p - tail_start) } }
  | _ => ht

/-- `HeadTail::make_room` (src/headtail.rs lines 167-194). -/
def HeadTail.make_room (ht : HeadTail) : HeadTail :=
  let capacity := ht.buf.cap
  let used := ht.buf.len
  let free := capacity - used
  if capacity / 8 < free then ht
  else
    match ht.state with
    | .tail ts => if used - ts.oldest_line ≤ capacity / 4 then ht.compact else ht
    | _ => ht.flush

/-- `HeadTail::put` (src/headtail.rs lines 198-204); the newline-free
debug assertion is a caller contract, not enforced in release builds. -/
def HeadTail.put (ht : HeadTail) (data : List Nat) : HeadTail :=
  { ht with buf := ht.buf.extend data }

/-- `HeadTail::switch_to_tail_mode` (src/headtail.rs lines 244-262). -/
def HeadTail.switch_to_tail_mode (ht : HeadTail) (ntail : Nat) : HeadTail :=
  { ht with
    buf := ht.aux1.clear,
    aux1 := Buf.empty,
    aux2 := [],
    state := .tail
      { head := ht.buf, lines := List.replicate (ntail + 1) 0,
        oldest_idx := 0, newlines := 0, ntail := ntail } }

/-- `HeadTail::nl` (src/headtail.rs lines 210-242): push the newline, then
update the state (`Head { lines_left: 0 }` is `unreachable!()`, hence
`none`), then `make_room`. -/
def HeadTail.nl (ht : HeadTail) : Option HeadTail :=
  let ht1 := { ht with buf := ht.buf.push 10 }
  match ht1.state with
  | .passthrough => some ht1.make_room
  | .head (n + 2) ntl => some (HeadTail.make_room { ht1 with state := .head (n + 1) ntl })
  | .tail ts => some (HeadTail.make_room { ht1 with state := .tail (ts.newline ht1.buf.len) })
  | .head 1 ntl => some (ht1.switch_to_tail_mode ntl).make_room
  | .head 0 _ => none

/-- `HeadTail::head_tail` (src/headtail.rs lines 264-280); panics (`none`)
when not in passthrough mode. -/
def HeadTail.head_tail (ht : HeadTail) (nhead ntail : Nat) : Option HeadTail :=
  match ht.state with
  | .passthrough =>
    if 0 < nhead then some { ht with state := .head nhead ntail }
    else some (ht.switch_to_tail_mode ntail)
  | _ => none

/-- The `Tail` value returned by `finish_tail` (src/headtail.rs lines 344-360). -/
structure TailResult where
  buf : Buf
  start : Nat
  skipped : Nat
  deriving Repr, DecidableEq

/-- `impl AsRef<[u8]> for Tail`: the visible tail bytes. -/
def TailResult.asRef (t : TailResult) : List Nat := t.buf.data.drop t.start

/-- `HeadTail::finish_tail` (src/headtail.rs lines 282-316); panics (`none`)
in passthrough mode. -/
def HeadTail.finish_tail (ht : HeadTail) : Option (HeadTail × TailResult) :=
  match ht.state with
  | .passthrough => none
  | .head _ _ =>
    some ({ ht with state := .passthrough, aux1 := Buf.empty },
          { buf := ht.aux1.clear, start := 0, skipped := 0 })
  | .tail ts =>
    some ({ ht with buf := ts.head, aux2 := ts.lines, state := .passthrough },
          { buf := ht.buf, start := ts.oldest_line, skipped := ts.newlines - ts.ntail })

/-- `HeadTail::put_tail` (src/headtail.rs lines 318-341). -/
def HeadTail.put_tail (ht : HeadTail) (t : TailResult) : HeadTail :=
  let data := t.asRef
  let free := ht.buf.cap - ht.buf.len
  let ht1 := if free < data.length then ht.flush else ht
  let step :=
    if t.start = 0 ∧ ht1.buf.data = [] then
      ({ ht1 with buf := t.buf }, ht1.buf)
    else
      ({ ht1 with buf := ht1.buf.extend data }, t.buf)
  let ht3 := step.1.make_room
  { ht3 with aux1 := step.2.clear }

/-! ### Drivers and specification helpers for the head/tail claims -/

/-- Feed one input line: a newline-free `put` followed by `nl`. -/
def HeadTail.feedLine (ht : HeadTail) (l : List Nat) : Option HeadTail :=
  (ht.put l).nl

/-- Feed a sequence of input lines. -/
def HeadTail.feedLines (ht : HeadTail) (ls : List (List Nat)) : Option HeadTail :=
  ls.foldlM HeadTail.feedLine ht

/-- One complete abbreviated output region on a fresh writer: bracket with
`head_tail`/`finish_tail` around the fed lines and report
(head-side bytes as flushed plus restored active buffer, tail bytes,
skipped count). -/
def runRegion (cap nhead ntail : Nat) (ls : List (List Nat)) :
    Option (List Nat × List Nat × Nat) := do
  let ht1 ← (HeadTail.with_capacity cap).head_tail nhead ntail
  let ht2 ← ht1.feedLines ls
  let (ht3, t) ← ht2.finish_tail
  pure (ht3.out ++ ht3.buf.data, t.asRef, t.skipped)

/-- Each line terminated by the newline byte, concatenated. -/
def joinNl (ls : List (List Nat)) : List Nat := (ls.map (fun l => l ++ [10])).flatten

/-- The tail-mode structural invariant checked by `sanity_check`
(src/headtail.rs lines 101-124), strengthened with the ring size
`ntail + 1` established by `switch_to_tail_mode`: the line starts read in
ring order starting at `oldest_idx` (the debug iterator
`TailState::lines`) are non-decreasing, and the newest one is at most the
buffer length. -/
def TailState.wf (ts : TailState) (buflen : Nat) : Prop :=
  ts.lines.length = ts.ntail + 1 ∧
  ts.oldest_idx < ts.lines.length ∧
  (∀ j, j + 1 < ts.lines.length → ts.line j ≤ ts.line (j + 1)) ∧
  ts.newest_line ≤ buflen

/-- The writer invariant of claim C10: whenever the writer is in tail
state, its tail state is well-formed. -/
def HeadTail.tailInv (ht : HeadTail) : Prop :=
  ∀ ts, ht.state = .tail ts → ts.wf ht.buf.len

/-- Byte length of the first `k` newline-terminated segments. -/
def segLen (ls : List (List Nat)) (k : Nat) : Nat := (joinNl (ls.take k)).length

/-- Representation invariant of tail mode relative to the lines fed since
the switch (`tl`) and the number of bytes compacted away (`dropped`): ring
slot `j` (in ring order) holds the end position of tail line
`m + j - ntail` (clamped at zero, the untouched initial slots), shifted
down by `dropped`; the buffer holds the fed tail bytes minus the
compacted prefix. -/
def TailRep (ntail : Nat) (tl : List (List Nat)) (dropped : Nat)
    (ts : TailState) (buf : List Nat) : Prop :=
  ts.ntail = ntail ∧
  ts.newlines = tl.length ∧
  ts.lines.length = ntail + 1 ∧
  ts.oldest_idx = tl.length % (ntail + 1) ∧
  dropped ≤ segLen tl (tl.length - ntail) ∧
  buf = (joinNl tl).drop dropped ∧
  (∀ j < ntail + 1, ts.line j = segLen tl (tl.length + j - ntail) - dropped)

/-- Invariant of one abbreviated region after feeding `fed` lines:
while the head is being collected the writer is in `Head` state and the
sink plus buffer hold all fed lines; afterwards it is in tail state with
the head bytes in the sink plus snapshot and `TailRep` for the rest. -/
def RegionInv (nhead ntail : Nat) (fed : List (List Nat)) (ht : HeadTail) : Prop :=
  if fed.length < nhead then
    ht.state = .head (nhead - fed.length) ntail ∧
    ht.out ++ ht.buf.data = joinNl fed
  else
    ∃ ts dropped, ht.state = .tail ts ∧
      ht.out ++ ts.head.data = joinNl (fed.take nhead) ∧
      TailRep ntail (fed.drop nhead) dropped ts ht.buf.data

/-! ## src/addr.rs — user-facing addresses, display, parsing, resolution

`OsStr` values are modelled as `List Char`; non-UTF-8 byte sequences are
outside the model (`to_str` always succeeds, `to_string_lossy` is the
identity).  The IPv4/IPv6 display and parsing routines the source calls in
the standard library are embedded from `std::net` behavior. -/

/-- `std::net::IpAddr`: an IPv4 address as four octets or an IPv6 address
as eight 16-bit segments. -/
inductive IpAddr
  | v4 (a b c d : Nat)
  | v6 (segs : List Nat)
  deriving DecidableEq, Repr

/-- `MonetAddr` (src/addr.rs lines 21-31). -/
inductive MonetAddr
  | dns (host : List Char) (port : Nat)
  | ip (addr : IpAddr) (port : Nat)
  | unix (path : List Char)
  | portOnly (port : Nat)
  deriving DecidableEq, Repr

/-- Modelled from `std`: `Display` for `Ipv4Addr` — dotted decimal. -/
def ipv4Display (a b c d : Nat) : List Char :=
  natToDec a ++ ['.'] ++ natToDec b ++ ['.'] ++ natToDec c ++ ['.'] ++ natToDec d

/-- `Ipv6Addr::is_unspecified`. -/
def ipv6IsUnspecified (segs : List Nat) : Bool := segs.all (fun g => g = 0)

/-- `Ipv6Addr::is_loopback`. -/
def ipv6IsLoopback (segs : List Nat) : Bool := segs = [0, 0, 0, 0, 0, 0, 0, 1]

/-- `Ipv6Addr::to_ipv4_mapped`: `::ffff:a.b.c.d` addresses. -/
def ipv6ToIpv4Mapped (segs : List Nat) : Option (Nat × Nat × Nat × Nat) :=
  match segs with
  | [0, 0, 0, 0, 0, 0xFFFF, g, h] => some (g / 256, g % 256, h / 256, h % 256)
  | _ => none

/-- A run of zero segments (the `Span` of `Ipv6Addr`'s `Display`). -/
structure Span where
  start : Nat
  len : Nat
  deriving DecidableEq, Repr

/-- One step of the longest-zero-run search inside `Display for Ipv6Addr`:
the accumulator carries the longest run seen so far and the current run. -/
def zeroSpanStep (acc : Span × Span) (p : Nat × Nat) : Span × Span :=
  if p.2 = 0 then
    let cur2 : Span :=
      { start := if acc.2.len = 0 then p.1 else acc.2.start,
        len := acc.2.len + 1 }
    (if acc.1.len < cur2.len then cur2 else acc.1, cur2)
  else (acc.1, ⟨0, 0⟩)

/-- Modelled from `std`: the longest-zero-run search inside `Display for
Ipv6Addr` (strictly-longer wins, so the first longest run is kept). -/
def zeroSpan (segs : List Nat) : Span :=
  (segs.enum.foldl zeroSpanStep (⟨0, 0⟩, ⟨0, 0⟩)).1

/-- Invariant of the zero-run fold after the first `n` segments: both the
recorded longest span and the current span lie below `n`, cover only zero
segments, and the current span (when nonempty) ends exactly at `n`. -/
def SpanInv (segs : List Nat) (n : Nat) (acc : Span × Span) : Prop :=
  acc.1.start + acc.1.len ≤ n ∧
  (∀ j, j < acc.1.len → segs[acc.1.start + j]? = some 0) ∧
  acc.2.start + acc.2.len ≤ n ∧
  (acc.2.len = 0 ∨ acc.2.start + acc.2.len = n) ∧
  (∀ j, j < acc.2.len → segs[acc.2.start + j]? = some 0)

/-- `fmt_subslice`: hex groups joined by `:`. -/
def hexGroups : List Nat → List Char
  | [] => []
  | [g] => natToHex g
  | g :: rest => natToHex g ++ [':'] ++ hexGroups rest

/-- Modelled from `std`: `Display` for `Ipv6Addr` — special cases for the
unspecified, loopback and IPv4-mapped addresses, otherwise hex groups with
the first longest run of two or more zero segments compressed to `::`. -/
def ipv6Display (segs : List Nat) : List Char :=
  if ipv6IsUnspecified segs then "::".toList
  else if ipv6IsLoopback segs then "::1".toList
  else
    match ipv6ToIpv4Mapped segs with
    | some (a, b, c, d) => "::ffff:".toList ++ ipv4Display a b c d
    | none =>
      let z := zeroSpan segs
      if 1 < z.len then
        hexGroups (segs.take z.start) ++ "::".toList ++ hexGroups (segs.drop (z.start + z.len))
      else hexGroups segs

/-- `impl Display for MonetAddr` (src/addr.rs lines 33-50). -/
def MonetAddr.display : MonetAddr → List Char
  | .dns host port => host ++ [':'] ++ natToDec port
  | .ip (.v4 a b c d) port => ipv4Display a b c d ++ [':'] ++ natToDec port
  | .ip (.v6 segs) port => ['['] ++ ipv6Display segs ++ [']', ':'] ++ natToDec port
  | .unix path => path
  | .portOnly n => natToDec n

/-! ### The `std::net` address parser, embedded

Functional embedding of `core::net::parser`: a parser is a function from
the remaining characters; combinator failure returns `none` and the caller
keeps its own input (`read_atomically` semantics). -/

/-- `Parser::read_given_char`. -/
def readGivenChar (c : Char) (s : List Char) : Option (List Char) :=
  match s with
  | x :: r => if x = c then some r else none
  | [] => none

/-- `char::to_digit(radix)` for the radices used here (10 and 16). -/
def charDigit (radix : Nat) (c : Char) : Option Nat :=
  match hexVal c with
  | some v => if v < radix then some v else none
  | none => none

/-- `Parser::read_number(radix, max_digits, allow_zero_prefix)` over an
integer type with maximum value `maxVal`: consume the maximal digit run,
then apply the count, zero-prefix and overflow checks of the source loop
(checked arithmetic aborts exactly when the final value exceeds `maxVal`,
as the partial values are monotone). -/
def readNumber (radix maxDigits maxVal : Nat) (allowZeroPrefix : Bool)
    (s : List Char) : Option (Nat × List Char) :=
  let ds := s.takeWhile (fun c => (charDigit radix c).isSome)
  let rest := s.dropWhile (fun c => (charDigit radix c).isSome)
  if ds = [] then none
  else if maxDigits < ds.length then none
  else if !allowZeroPrefix && ds.headD '0' = '0' && 1 < ds.length then none
  else
    let v := ds.foldl (fun acc c => acc * radix + (charDigit radix c).getD 0) 0
    if maxVal < v then none else some (v, rest)

/-- `Parser::read_separator`: at positions after the first, require the
separator character first; atomic as a whole. -/
def readSeparator (sep : Char) (index : Nat)
    (inner : List Char → Option (α × List Char)) (s : List Char) :
    Option (α × List Char) :=
  if index = 0 then inner s
  else
    match readGivenChar sep s with
    | some r => inner r
    | none => none

/-- `Parser::read_ipv4_addr`: four dot-separated octets, up to three digits
each, no leading zeros. -/
def readIpv4Addr (s : List Char) : Option ((Nat × Nat × Nat × Nat) × List Char) := do
  let (a, s1) ← readSeparator '.' 0 (readNumber 10 3 255 false) s
  let (b, s2) ← readSeparator '.' 1 (readNumber 10 3 255 false) s1
  let (c, s3) ← readSeparator '.' 2 (readNumber 10 3 255 false) s2
  let (d, s4) ← readSeparator '.' 3 (readNumber 10 3 255 false) s3
  pure ((a, b, c, d), s4)

/-- The `read_groups` helper of `Parser::read_ipv6_addr`, reading groups
at indices `i, i+1, ...` up to `limit` total; at each position with at
least two slots left an embedded trailing IPv4 address is tried first.
Returns the groups read, the embedded-IPv4 flag, and the rest. -/
def readGroupsAux (limit : Nat) (i : Nat) (s : List Char) :
    List Nat × Bool × List Char :=
  if _h : i < limit then
    let v4try := if i + 1 < limit then readSeparator ':' i readIpv4Addr s else none
    match v4try with
    | some ((a, b, c, d), s1) => ([a * 256 + b, c * 256 + d], true, s1)
    | none =>
      match readSeparator ':' i (readNumber 16 4 65535 true) s with
      | some (g, s1) =>
        let r := readGroupsAux limit (i + 1) s1
        (g :: r.1, r.2.1, r.2.2)
      | none => ([], false, s)
  else ([], false, s)
  termination_by limit - i

/-- `Parser::read_ipv6_addr`: head groups, then optionally `::` and tail
groups, the gap filled with zero segments. -/
def readIpv6Addr (s : List Char) : Option (List Nat × List Char) :=
  let r := readGroupsAux 8 0 s
  let head := r.1
  let headV4 := r.2.1
  let s1 := r.2.2
  if head.length = 8 then some (head, s1)
  else if headV4 then none
  else
    match readGivenChar ':' s1 with
    | none => none
    | some s2 =>
      match readGivenChar ':' s2 with
      | none => none
      | some s3 =>
        let limit := 8 - (head.length + 1)
        let t := readGroupsAux limit 0 s3
        some (head ++ List.replicate (8 - head.length - t.1.length) 0 ++ t.1, t.2.2)

/-- `Ipv6Addr::from_str`: the whole string must be consumed. -/
def parseIpv6 (s : List Char) : Option (List Nat) :=
  match readIpv6Addr s with
  | some (segs, []) => some segs
  | _ => none

/-- `Ipv4Addr::from_str`: the whole string must be consumed. -/
def parseIpv4 (s : List Char) : Option (Nat × Nat × Nat × Nat) :=
  match readIpv4Addr s with
  | some (o, []) => some o
  | _ => none

/-- `str::parse::<u16>`: optional leading `+`, then decimal digits, value
at most 65535. -/
def parseU16 (s : List Char) : Option Nat :=
  let ds := match s with
            | '+' :: rest => rest
            | _ => s
  if ds = [] then none
  else if ds.all isDigitChar then
    let v := ds.foldl (fun acc c => acc * 10 + digitVal c) 0
    if v ≤ 65535 then some v else none
  else none

/-! ### The three `lazy_regex` patterns of src/addr.rs, as matchers -/

/-- Matcher state for `^\d+.\d+.\d+.\d+$` (the dots are unescaped and match
any character except newline): inside a digit run with `k` wildcard-plus-run
units still to come.  A character may extend the current digit run, or — when
units remain — serve as the wildcard, which must be followed by a digit
starting the next run. -/
def looseScan : Nat → List Char → Bool
  | k, [] => k = 0
  | 0, c :: r => isDigitChar c && looseScan 0 r
  | kk + 1, [c] => isDigitChar c && looseScan (kk + 1) []
  | kk + 1, c :: d :: r2 =>
    (isDigitChar c && looseScan (kk + 1) (d :: r2)) ||
    (decide (c ≠ '\n') && isDigitChar d && looseScan kk r2)

/-- `regex_is_match!(r"^\d+.\d+.\d+.\d+$", host_part)`. -/
def looseIpv4Match (s : List Char) : Bool :=
  match s with
  | c :: r => isDigitChar c && looseScan 3 r
  | [] => false

/-- Character class `[0-9a-f:]` with the `i` flag. -/
def isHexColon (c : Char) : Bool :=
  isDigitChar c || ('a' ≤ c && c ≤ 'f') || ('A' ≤ c && c ≤ 'F') || c = ':'

/-- `regex_captures!(r"^\[([0-9a-f:]+)\]$"i, host_part)`: capture the
bracket content. -/
def bracketCapture (s : List Char) : Option (List Char) :=
  match s with
  | '[' :: rest =>
    if rest.getLast? = some ']' then
      let mid := rest.dropLast
      if mid ≠ [] ∧ mid.all isHexColon then some mid else none
    else none
  | _ => none

/-- First character class of `^[a-z0-9][-a-z0-9.]*$` with the `i` flag. -/
def isDnsStart (c : Char) : Bool :=
  isDigitChar c || ('a' ≤ c && c ≤ 'z') || ('A' ≤ c && c ≤ 'Z')

/-- Continuation class `[-a-z0-9.]` with the `i` flag. -/
def isDnsChar (c : Char) : Bool := isDnsStart c || c = '-' || c = '.'

/-- `regex_is_match!(r"^[a-z0-9][-a-z0-9.]*$"i, host_part)`. -/
def dnsMatch (s : List Char) : Bool :=
  match s with
  | c :: r => isDnsStart c && r.all isDnsChar
  | [] => false

/-- `regex_captures!(r"^(.+):(\d+)$", str_value)`: with a greedy `(.+)` the
unique match splits at the colon immediately preceding the maximal all-digit
suffix; the prefix must be nonempty and newline-free (`.` does not match
newlines). -/
def hostPortSplit (s : List Char) : Option (List Char × List Char) :=
  let port := (s.reverse.takeWhile isDigitChar).reverse
  let pre := s.take (s.length - port.length)
  if port ≠ [] ∧ pre.getLast? = some ':' then
    let host := pre.dropLast
    if host ≠ [] ∧ '\n' ∉ host then some (host, port) else none
  else none

/-! ### `TryFrom<&OsStr> for MonetAddr` -/

/-- `std::io::ErrorKind`, restricted to the variants that appear. -/
inductive IoErrorKind
  | invalidInput
  | other
  deriving DecidableEq, Repr

/-- A `std::io::Error`: kind plus message. -/
structure IoError where
  kind : IoErrorKind
  msg : List Char
  deriving DecidableEq, Repr

/-- The nested `parse` function of the `TryFrom` impl
(src/addr.rs lines 58-99). -/
def MonetAddr.parse (s : List Char) : Option MonetAddr :=
  if ('/' ∈ s) ∨ ('\\' ∈ s) then some (.unix s)
  else
    match parseU16 s with
    | some port => some (.portOnly port)
    | none =>
      match hostPortSplit s with
      | none => none
      | some (host_part, port_part) =>
        match parseU16 port_part with
        | none => none
        | some port =>
          if looseIpv4Match host_part then
            match parseIpv4 host_part with
            | some (a, b, c, d) => some (.ip (.v4 a b c d) port)
            | none => none
          else
            match bracketCapture host_part with
            | some inner =>
              match parseIpv6 inner with
              | some segs => some (.ip (.v6 segs) port)
              | none => none
            | none =>
              if dnsMatch host_part then some (.dns host_part port) else none

/-- `TryFrom<&OsStr> for MonetAddr` (src/addr.rs lines 100-110): errors are
`ErrorKind::InvalidInput` with message `invalid address: {input}`. -/
def MonetAddr.tryFrom (s : List Char) : Except IoError MonetAddr :=
  match MonetAddr.parse s with
  | some a => .ok a
  | none => .error ⟨.invalidInput, "invalid address: ".toList ++ s⟩

/-! ### `MonetAddr::resolve` (claim C7) -/

/-- `std::net::SocketAddr`. -/
structure TcpSockAddr where
  ip : IpAddr
  port : Nat
  deriving DecidableEq, Repr

/-- `Addr` (src/addr.rs lines 166-170). -/
inductive Addr
  | tcp (a : TcpSockAddr)
  | unix (path : List Char)
  deriving DecidableEq, Repr

/-- `Addr::is_tcp`. -/
def Addr.is_tcp : Addr → Bool
  | .tcp _ => true
  | .unix _ => false

/-- `Addr::is_unix`. -/
def Addr.is_unix (a : Addr) : Bool := !a.is_tcp

/-- `MonetAddr::resolve_tcp` (src/addr.rs lines 136-147).  DNS resolution
(`ToSocketAddrs` on a host/port pair) is an operating system call, passed
in as the oracle `dns`; resolving a concrete IP is immediate. -/
def MonetAddr.resolve_tcp
    (dns : List Char → Nat → Except IoError (List TcpSockAddr)) :
    MonetAddr → Except IoError (List Addr)
  | .unix _ => .ok []
  | .dns host port => (dns host port).map (List.map .tcp)
  | .ip ipa port => .ok [.tcp ⟨ipa, port⟩]
  | .portOnly port => (dns "localhost".toList port).map (List.map .tcp)

/-- `MonetAddr::resolve_unix` (src/addr.rs lines 150-161); `cfg!(unix)`
is the build configuration, passed as a parameter. -/
def MonetAddr.resolve_unix (cfgUnix : Bool) : MonetAddr → Except IoError (Option Addr)
  | a =>
    if cfgUnix then
      match a with
      | .dns _ _ => .ok none
      | .ip _ _ => .ok none
      | .unix p => .ok (some (.unix p))
      | .portOnly port => .ok (some (.unix ("/tmp/.s.monetdb.".toList ++ natToDec port)))
    else .ok none

/-- `MonetAddr::resolve` (src/addr.rs lines 126-133): TCP alternatives with
the Unix entry, when present, prepended. -/
def MonetAddr.resolve
    (dns : List Char → Nat → Except IoError (List TcpSockAddr)) (cfgUnix : Bool)
    (a : MonetAddr) : Except IoError (List Addr) :=
  match a.resolve_tcp dns with
  | .error e => .error e
  | .ok addrs =>
    match a.resolve_unix cfgUnix with
    | .error e => .error e
    | .ok (some u) => .ok (u :: addrs)
    | .ok none => .ok addrs

/-- The canonical `MonetAddr` values of claim C2: DNS hosts that match the
host regex and are not diverted to the IPv4 branch by the loose
`\d+.\d+.\d+.\d+` pattern, in-range IPv4 octets, well-formed IPv6 segment
lists that are not IPv4-mapped (those display in a dotted form the parser
rejects), Unix paths containing a slash or backslash, and in-range ports. -/
def canonical : MonetAddr → Prop
  | .dns host port => dnsMatch host = true ∧ looseIpv4Match host = false ∧ port < 65536
  | .ip (.v4 a b c d) port => a < 256 ∧ b < 256 ∧ c < 256 ∧ d < 256 ∧ port < 65536
  | .ip (.v6 segs) port =>
      segs.length = 8 ∧ (∀ g ∈ segs, g < 65536) ∧ ipv6ToIpv4Mapped segs = none ∧ port < 65536
  | .unix path => ('/' ∈ path) ∨ ('\\' ∈ path)
  | .portOnly port => port < 65536

/-! ## src/pcap/mod.rs — `parse_pcap_ng` timestamp handling (claim C8)

`std::time::Duration` is a pair of whole seconds and sub-second
nanoseconds; its `u32` scalar multiplication is exact and its `u32` scalar
division truncates to whole nanoseconds (and panics on a zero divisor).
`u32` arithmetic in release builds wraps, so `base.pow(reso & 0x7F)` is
taken modulo `2^32`. -/

/-- `std::time::Duration`: seconds plus nanoseconds below `10^9`. -/
structure Duration where
  secs : Nat
  nanos : Nat
  deriving DecidableEq, Repr

/-- Total nanoseconds of a `Duration`. -/
def Duration.toNanos (d : Duration) : Nat := d.secs * 1000000000 + d.nanos

/-- `Duration::from_secs`. -/
def Duration.fromSecs (n : Nat) : Duration := ⟨n, 0⟩

/-- `Duration::from_micros(1)`, the initial pcapng resolution. -/
def Duration.oneMicro : Duration := ⟨0, 1000⟩

/-- Modelled from `std`: `Duration::checked_div` — divide seconds and
nanoseconds, folding the remainders into the nanosecond quotient;
`none` on a zero divisor (`Div` panics there). -/
def Duration.checkedDiv (d : Duration) (r : Nat) : Option Duration :=
  if r = 0 then none
  else some ⟨d.secs / r, d.nanos / r + (d.secs % r * 1000000000 + d.nanos % r) / r⟩

/-- Modelled from `std`: `Duration * u32` — exact scalar multiplication
with nanosecond carry (the overflow panic cannot trigger in the uses
below, where the product stays within `u64` seconds). -/
def Duration.mulU32 (d : Duration) (k : Nat) : Duration :=
  ⟨d.secs * k + d.nanos * k / 1000000000, d.nanos * k % 1000000000⟩

/-- Modelled from `std`: `Duration + Duration` with nanosecond carry. -/
def Duration.add (d e : Duration) : Duration :=
  let n := d.nanos + e.nanos
  if n < 1000000000 then ⟨d.secs + e.secs, n⟩ else ⟨d.secs + e.secs + 1, n - 1000000000⟩

/-- Interface description options (`pcap_file` crate), restricted to the
one variant the source inspects. -/
inductive NgOption
  | ifTsResol (v : Nat)
  | otherOpt
  deriving DecidableEq, Repr

/-- pcapng blocks as delivered by the `pcap_file` crate reader and matched
in `parse_pcap_ng` (src/pcap/mod.rs lines 86-121). -/
inductive NgBlock
  | interfaceDescription (linktype : Nat) (options : List NgOption)
  /-- Legacy `Block::Packet` with its raw 64-bit timestamp unit count. -/
  | packet (units : Nat) (data : List Nat)
  | simplePacket (data : List Nat)
  /-- `Block::EnhancedPacket`, whose timestamp arrives as a `Duration`. -/
  | enhancedPacket (timestamp : Duration) (data : List Nat)
  | other
  deriving DecidableEq, Repr

/-- The mutable loop state of `parse_pcap_ng`. -/
structure NgState where
  linktype : Option Nat
  timestamp_resolution : Duration
  timestamp : Duration
  deriving DecidableEq, Repr

/-- The initial loop state (src/pcap/mod.rs lines 80-85); the wall-clock
start timestamp is a parameter. -/
def ngInit (t0 : Duration) : NgState :=
  { linktype := none, timestamp_resolution := .oneMicro, timestamp := t0 }

/-- One `IfTsResol` option application (src/pcap/mod.rs lines 92-96):
`base = 10` when the top bit of the value is clear, else `2`; the divisor
is `base.pow(v & 0x7F)` in wrapping `u32` arithmetic; dividing
`Duration::from_secs(1)` by zero panics (`none`). -/
def applyIfaceOption (reso : Duration) (o : NgOption) : Option Duration :=
  match o with
  | .ifTsResol v =>
    let base : Nat := if v &&& 0x80 = 0 then 10 else 2
    let divisor := base ^ (v &&& 0x7F) % 2 ^ 32
    Duration.checkedDiv (Duration.fromSecs 1) divisor
  | .otherOpt => some reso

/-- One iteration of the `parse_pcap_ng` block loop
(src/pcap/mod.rs lines 86-128): interface descriptions update link type
and resolution; a legacy packet block multiplies its 64-bit unit count by
the current resolution in two 32-bit halves; packets are handed on only
once a link type is known. -/
def ngStep (st : NgState) (b : NgBlock) :
    Option (NgState × Option (Duration × List Nat)) :=
  match b with
  | .interfaceDescription lt opts =>
    match opts.foldlM applyIfaceOption st.timestamp_resolution with
    | some reso => some ({ st with linktype := some lt, timestamp_resolution := reso }, none)
    | none => none
  | .packet units data =>
    let units_lo := units % 2 ^ 32
    let units_hi := units / 2 ^ 32
    let duration_lo := st.timestamp_resolution.mulU32 units_lo
    let duration_hi := st.timestamp_resolution.mulU32 units_hi
    let ts := ((duration_hi.mulU32 0x10000).mulU32 0x10000).add duration_lo
    some ({ st with timestamp := ts },
          match st.linktype with
          | some _ => some (ts, data)
          | none => none)
  | .simplePacket data =>
    some (st, match st.linktype with
              | some _ => some (st.timestamp, data)
              | none => none)
  | .enhancedPacket t data =>
    some ({ st with timestamp := t },
          match st.linktype with
          | some _ => some (t, data)
          | none => none)
  | .other => some (st, none)

/-- Run `parse_pcap_ng` over a block list, collecting the packets handed
to `process_packet` with their timestamps. -/
def ngRun (t0 : Duration) (blocks : List NgBlock) :
    Option (NgState × List (Duration × List Nat)) :=
  blocks.foldlM
    (fun acc b =>
      match ngStep acc.1 b with
      | some (st, some p) => some (st, acc.2 ++ [p])
      | some (st, none) => some (st, acc.2)
      | none => none)
    (ngInit t0, [])

/-! ## Theorems -/

/-- C3: `parse_pcap_file` reads exactly 4 signature bytes and dispatches on
them: `D4 C3 B2 A1` or `A1 B2 B3 D4` select the legacy pcap parser,
`0A 0D 0D 0A` selects the pcapng parser, and for every other 4-byte
signature it returns an error that names the four signature bytes. -/
theorem pcap_signature_dispatch (b0 b1 b2 b3 : Nat) (rest : List Nat)
    (hb0 : b0 < 256) (hb1 : b1 < 256) (hb2 : b2 < 256) (hb3 : b3 < 256) :
    (((b0 = 0xD4 ∧ b1 = 0xC3 ∧ b2 = 0xB2 ∧ b3 = 0xA1) ∨
      (b0 = 0xA1 ∧ b1 = 0xB2 ∧ b2 = 0xB3 ∧ b3 = 0xD4)) →
      parse_pcap_file (b0 :: b1 :: b2 :: b3 :: rest) =
        .ok (.legacy (b0 :: b1 :: b2 :: b3 :: rest))) ∧
    ((b0 = 0x0A ∧ b1 = 0x0D ∧ b2 = 0x0D ∧ b3 = 0x0A) →
      parse_pcap_file (b0 :: b1 :: b2 :: b3 :: rest) =
        .ok (.ng (b0 :: b1 :: b2 :: b3 :: rest))) ∧
    (¬(b0 = 0xD4 ∧ b1 = 0xC3 ∧ b2 = 0xB2 ∧ b3 = 0xA1) →
     ¬(b0 = 0xA1 ∧ b1 = 0xB2 ∧ b2 = 0xB3 ∧ b3 = 0xD4) →
     ¬(b0 = 0x0A ∧ b1 = 0x0D ∧ b2 = 0x0D ∧ b3 = 0x0A) →
      parse_pcap_file (b0 :: b1 :: b2 :: b3 :: rest) =
        .error ("Unknown pcap file signature ".toList ++ hex2Upper b0 ++ [' '] ++
          hex2Upper b1 ++ [' '] ++ hex2Upper b2 ++ [' '] ++ hex2Upper b3)) := by
  refine ⟨?_, ?_, ?_⟩
  · rintro (⟨rfl, rfl, rfl, rfl⟩ | ⟨rfl, rfl, rfl, rfl⟩) <;> rfl
  · rintro ⟨rfl, rfl, rfl, rfl⟩; rfl
  · intro h1 h2 h3
    simp only [parse_pcap_file, if_neg h1, if_neg h2, if_neg h3]

/-- Witness for C3 at the all-zero signature. -/
theorem pcap_signature_dispatch_witness :
    parse_pcap_file [0, 0, 0, 0, 9] =
      .error ("Unknown pcap file signature ".toList ++ hex2Upper 0 ++ [' '] ++
        hex2Upper 0 ++ [' '] ++ hex2Upper 0 ++ [' '] ++ hex2Upper 0) :=
  (pcap_signature_dispatch 0 0 0 0 [9] (by decide) (by decide) (by decide)
    (by decide)).2.2 (by decide) (by decide) (by decide)

/-- C5 counterexample: with `-o PATH` and an explicit `--color=always`,
color stays enabled — the claim that every combination with an explicit
`--color` flag behaves as if `--color=never` is false. -/
theorem output_color_counterexample :
    outputConfig (some ['f']) When.always true ≠ (OutDest.file ['f'], false) := by
  decide

/-- C5 (amended): `-o PATH` always redirects output to the file, but it
forces colors off only when the color flag is still `Auto` (the default);
an explicit `--color=always` keeps color on, `--color=never` stays off. -/
theorem output_file_overrides_auto_only (p : List Char) (w : When) (tty : Bool) :
    (outputConfig (some p) w tty).1 = .file p ∧
    (outputConfig (some p) When.auto tty).2 = false ∧
    (outputConfig (some p) When.never tty).2 = false ∧
    (outputConfig (some p) When.always tty).2 = true ∧
    (outputConfig none w tty).1 = .stdout := by
  cases w <;> exact ⟨rfl, rfl, rfl, rfl, rfl⟩

/-- C4 counterexample: the `run_proxy` handler discards the result of
`send`; with a disconnected receiver the event is silently dropped and the
handler returns normally — nothing fatal happens, contradicting the claim
that a failed send aborts the proxy and no event is dropped. -/
theorem run_proxy_send_counterexample :
    runProxyHandler (⟨[], 500, false⟩ : SyncChannel Nat) 7 = ⟨[], 500, false⟩ := by
  rfl

/-- C4 (amended): the event channel is bounded with capacity 500; a send
with a connected receiver enqueues the event (a full queue blocks the
sender instead of failing), and a send after the receiver disconnected
fails, the failure is ignored (`let _ =`) and the event is dropped without
aborting the proxy. -/
theorem run_proxy_channel_behavior (ch : SyncChannel α) (x : α) :
    (eventChannel α).bound = 500 ∧
    (ch.receiverAlive = true → runProxyHandler ch x = { ch with queue := ch.queue ++ [x] }) ∧
    (ch.receiverAlive = false → runProxyHandler ch x = ch) := by
  refine ⟨rfl, ?_, ?_⟩ <;> intro h <;>
    simp [runProxyHandler, SyncChannel.send, h]

/-- Witness for C4's amended theorem on a live and a dead channel. -/
theorem run_proxy_channel_behavior_witness :
    runProxyHandler (⟨[], 500, true⟩ : SyncChannel Nat) 3 = ⟨[3], 500, true⟩ ∧
    runProxyHandler (⟨[9], 500, false⟩ : SyncChannel Nat) 3 = ⟨[9], 500, false⟩ :=
  ⟨(run_proxy_channel_behavior _ 3).2.1 rfl, (run_proxy_channel_behavior _ 3).2.2 rfl⟩

/-- C9: `dump_frame` labels a frame `text` exactly when `force_binary` is
off, the payload is valid UTF-8, and every byte below 0x20 is LF or TAB;
otherwise it labels it `binary` (and dumps hex). -/
theorem dump_frame_text_iff (force_binary : Bool) (data : List Nat) :
    (dumpFrameFormat force_binary data = "text" ↔
      (force_binary = false ∧ validUtf8 data = true ∧
        ∀ b ∈ data, b < 0x20 → b = 10 ∨ b = 9)) ∧
    (dumpFrameFormat force_binary data = "binary" ↔
      ¬(force_binary = false ∧ validUtf8 data = true ∧
        ∀ b ∈ data, b < 0x20 → b = 10 ∨ b = 9)) := by
  have hscary : (is_scary data = false) ↔ ∀ b ∈ data, b < 0x20 → b = 10 ∨ b = 9 := by
    rw [← Bool.not_eq_true, is_scary, List.any_eq_true]
    constructor
    · intro h b hb hlt
      by_cases h10 : b = 10
      · exact Or.inl h10
      · by_cases h9 : b = 9
        · exact Or.inr h9
        · exact absurd ⟨b, hb, by simp [hlt, h10, h9]⟩ h
    · rintro h ⟨b, hb, hpred⟩
      simp only [Bool.and_eq_true, decide_eq_true_eq, bne_iff_ne, ne_eq] at hpred
      rcases h b hb hpred.1.1 with h' | h'
      · exact hpred.1.2 h'
      · exact hpred.2 h'
  by_cases hb : dumpFrameIsBinary force_binary data = true
  · have hfmt : dumpFrameFormat force_binary data = "binary" := by
      rw [dumpFrameFormat, if_pos hb]
    have hcond : ¬(force_binary = false ∧ validUtf8 data = true ∧
        ∀ b ∈ data, b < 0x20 → b = 10 ∨ b = 9) := by
      rintro ⟨h1, h2, h3⟩
      rw [dumpFrameIsBinary, h1, h2, hscary.mpr h3] at hb
      simp at hb
    rw [hfmt]
    exact ⟨⟨fun h => absurd h (by decide), fun hc => absurd hc hcond⟩,
      ⟨fun _ => hcond, fun _ => rfl⟩⟩
  · have hb' : dumpFrameIsBinary force_binary data = false := by
      simpa using hb
    have hfmt : dumpFrameFormat force_binary data = "text" := by
      rw [dumpFrameFormat, if_neg hb]
    have hsplit : force_binary = false ∧ is_scary data = false ∧ validUtf8 data = true := by
      have := hb'
      rw [dumpFrameIsBinary] at this
      simp only [Bool.or_eq_false_iff] at this
      exact ⟨this.1.1, this.1.2, by simpa using this.2⟩
    rw [hfmt]
    exact ⟨⟨fun _ => ⟨hsplit.1, hsplit.2.2, hscary.mp hsplit.2.1⟩, fun _ => rfl⟩,
      ⟨fun h => absurd h (by decide),
       fun hc => absurd ⟨hsplit.1, hsplit.2.2, hscary.mp hsplit.2.1⟩ hc⟩⟩

/-- C7: `resolve` yields Unix entries before TCP entries whenever both are
present, and a lone port resolves to the Unix socket path
`/tmp/.s.monetdb.PORT` followed by the TCP addresses of `localhost:PORT`
in DNS resolution order. -/
theorem resolve_unix_before_tcp
    (dns : List Char → Nat → Except IoError (List TcpSockAddr)) (cfgUnix : Bool)
    (a : MonetAddr) (l : List Addr) (p : Nat) (tcps : List TcpSockAddr) :
    (MonetAddr.resolve dns cfgUnix a = .ok l →
      ∃ us ts, l = us ++ ts ∧ (∀ x ∈ us, x.is_unix = true) ∧ (∀ x ∈ ts, x.is_tcp = true)) ∧
    (dns "localhost".toList p = .ok tcps →
      MonetAddr.resolve dns true (.portOnly p) =
        .ok (.unix ("/tmp/.s.monetdb.".toList ++ natToDec p) :: tcps.map .tcp)) := by
  constructor
  · intro hres
    have maptcp : ∀ v : List TcpSockAddr, ∀ x ∈ v.map Addr.tcp, Addr.is_tcp x = true := by
      intro v x hx
      obtain ⟨y, _, rfl⟩ := List.mem_map.mp hx
      rfl
    cases a with
    | unix path =>
      rw [MonetAddr.resolve] at hres
      cases cfgUnix with
      | true =>
        simp only [MonetAddr.resolve_tcp, MonetAddr.resolve_unix] at hres
        cases hres
        exact ⟨[.unix path], [], rfl, by intro x hx; simp at hx; subst hx; rfl, by simp⟩
      | false =>
        simp only [MonetAddr.resolve_tcp, MonetAddr.resolve_unix] at hres
        cases hres
        exact ⟨[], [], rfl, by simp, by simp⟩
    | dns host port =>
      rw [MonetAddr.resolve] at hres
      cases hdns : dns host port with
      | error e =>
        rw [MonetAddr.resolve_tcp, hdns] at hres
        simp [Except.map] at hres
      | ok v =>
        rw [MonetAddr.resolve_tcp, hdns] at hres
        cases cfgUnix <;> simp only [MonetAddr.resolve_unix, Except.map] at hres <;>
          cases hres <;> exact ⟨[], v.map .tcp, rfl, by simp, maptcp v⟩
    | ip ipa port =>
      rw [MonetAddr.resolve] at hres
      cases cfgUnix <;> simp only [MonetAddr.resolve_tcp, MonetAddr.resolve_unix] at hres <;>
        cases hres <;>
        exact ⟨[], [.tcp ⟨ipa, port⟩], rfl, by simp, by intro x hx; simp at hx; subst hx; rfl⟩
    | portOnly port =>
      rw [MonetAddr.resolve] at hres
      cases hdns : dns "localhost".toList port with
      | error e =>
        rw [MonetAddr.resolve_tcp, hdns] at hres
        simp [Except.map] at hres
      | ok v =>
        rw [MonetAddr.resolve_tcp, hdns] at hres
        cases cfgUnix with
        | true =>
          simp only [MonetAddr.resolve_unix, Except.map] at hres
          cases hres
          refine ⟨[.unix ("/tmp/.s.monetdb.".toList ++ natToDec port)], v.map .tcp, rfl, ?_, maptcp v⟩
          intro x hx; simp at hx; subst hx; rfl
        | false =>
          simp only [MonetAddr.resolve_unix, Except.map] at hres
          cases hres
          exact ⟨[], v.map .tcp, rfl, by simp, maptcp v⟩
  · intro hdns
    rw [MonetAddr.resolve, MonetAddr.resolve_tcp, hdns]
    simp [MonetAddr.resolve_unix, Except.map]

/-- Witness for C7 with a one-entry DNS oracle. -/
theorem resolve_unix_before_tcp_witness :
    MonetAddr.resolve (fun _ _ => .ok [⟨.v4 127 0 0 1, 50000⟩]) true (.portOnly 50000) =
      .ok [.unix ("/tmp/.s.monetdb.".toList ++ natToDec 50000),
           .tcp ⟨.v4 127 0 0 1, 50000⟩] :=
  (resolve_unix_before_tcp (fun _ _ => .ok [⟨.v4 127 0 0 1, 50000⟩]) true
    (.portOnly 50000) [] 50000 [⟨.v4 127 0 0 1, 50000⟩]).2 rfl

/-- C8 counterexample: for `IfTsResol` value 10 (top bit clear) the claim
demands a resolution of `10^-10` seconds, so `10^10` units should give a
one-second timestamp; but `10^10` wraps to `1410065408` in `u32`, the
truncating `Duration` division yields a zero resolution, and the packet
timestamp comes out zero instead of one second. -/
theorem ng_resolution_counterexample :
    ngRun ⟨0, 0⟩ [.interfaceDescription 1 [.ifTsResol 10], .packet (10 ^ 10) []] =
      some ({ linktype := some 1, timestamp_resolution := ⟨0, 0⟩, timestamp := ⟨0, 0⟩ },
            [(⟨0, 0⟩, [])]) ∧
    (⟨0, 0⟩ : Duration) ≠ Duration.fromSecs 1 := by
  exact ⟨by rfl, by decide⟩

/-- C8 (amended): an `IfTsResol` value `v` sets the resolution to
`Duration::from_secs(1)` divided (truncating to nanoseconds) by
`base^(v & 0x7F) mod 2^32` with `base = 10` when the top bit is clear and
`2` when set — a panic when the wrapped divisor is zero; this equals
`10^-(v & 0x7F)` seconds exactly only for exponents up to 9 (and
`1e9 / 2^(v & 0x7F)` nanoseconds for exponents up to 31).  Every legacy
`Packet` block's timestamp equals its 64-bit unit count times the stored
resolution, exactly in nanoseconds. -/
theorem ng_resolution_and_packet_timestamp (st : NgState) (v units : Nat)
    (data : List Nat) :
    (v &&& 0x80 = 0 → v &&& 0x7F ≤ 9 →
      ∃ d, applyIfaceOption st.timestamp_resolution (.ifTsResol v) = some d ∧
        d.toNanos * 10 ^ (v &&& 0x7F) = 1000000000) ∧
    (v &&& 0x80 ≠ 0 → v &&& 0x7F ≤ 31 →
      ∃ d, applyIfaceOption st.timestamp_resolution (.ifTsResol v) = some d ∧
        d.toNanos = 1000000000 / 2 ^ (v &&& 0x7F)) ∧
    (∀ st2 emitted, ngStep st (.packet units data) = some (st2, emitted) →
      st2.timestamp.toNanos = st.timestamp_resolution.toNanos * units) := by
  have hmul : ∀ (d : Duration) (k : Nat), (d.mulU32 k).toNanos = d.toNanos * k := by
    intro d k
    simp only [Duration.mulU32, Duration.toNanos]
    have := Nat.div_add_mod (d.nanos * k) 1000000000
    ring_nf
    omega
  have hadd : ∀ d e : Duration, (d.add e).toNanos = d.toNanos + e.toNanos := by
    intro d e
    rw [Duration.add]
    split <;> rename_i h <;> simp only [Duration.toNanos] <;> omega
  refine ⟨?_, ?_, ?_⟩
  · intro htop hle
    rw [applyIfaceOption, htop]
    simp only [if_pos rfl]
    revert hle
    generalize (v &&& 0x7F) = x
    intro hle
    interval_cases x <;> exact ⟨_, rfl, by decide⟩
  · intro htop hle
    rw [applyIfaceOption]
    rw [if_neg htop]
    revert hle
    generalize (v &&& 0x7F) = x
    intro hle
    interval_cases x <;> exact ⟨_, rfl, by decide⟩
  · intro st2 emitted hstep
    simp only [ngStep, Option.some.injEq, Prod.mk.injEq] at hstep
    obtain ⟨h1, _⟩ := hstep
    subst h1
    simp only [hmul, hadd]
    have h32 : units / 2 ^ 32 * 2 ^ 32 + units % 2 ^ 32 = units := by
      have := Nat.div_add_mod units (2 ^ 32)
      omega
    calc st.timestamp_resolution.toNanos * (units / 2 ^ 32) * 65536 * 65536 +
          st.timestamp_resolution.toNanos * (units % 2 ^ 32)
        = st.timestamp_resolution.toNanos * (units / 2 ^ 32 * 2 ^ 32 + units % 2 ^ 32) := by
          ring
      _ = st.timestamp_resolution.toNanos * units := by rw [h32]

/-! ### Head/tail writer: ring and segment lemmas -/

theorem getD_set_self (l : List Nat) (i pos : Nat) (h : i < l.length) :
    (l.set i pos).getD i 0 = pos := by
  rw [List.getD_eq_getElem?_getD, List.getElem?_set]
  simp [h]

theorem getD_set_ne (l : List Nat) (i k pos : Nat) (h : i ≠ k) :
    (l.set i pos).getD k 0 = l.getD k 0 := by
  rw [List.getD_eq_getElem?_getD, List.getElem?_set, if_neg h, ← List.getD_eq_getElem?_getD]

theorem mod_two_cases (x L : Nat) (hL : 0 < L) (h2 : x < 2 * L) :
    x % L = if x < L then x else x - L := by
  split
  · exact Nat.mod_eq_of_lt (by assumption)
  · rename_i h
    rw [Nat.mod_eq_sub_mod (by omega), Nat.mod_eq_of_lt (by omega)]

/-- Ring slot contents after `TailState::newline`: the slots shift down one
ring position and the newest slot takes the recorded position. -/
theorem TailState.line_newline (ts : TailState) (pos : Nat)
    (ho : ts.oldest_idx < ts.lines.length) (j : Nat) (hj : j < ts.lines.length) :
    (ts.newline pos).line j =
      if j + 1 = ts.lines.length then pos else ts.line (j + 1) := by
  have hL : 0 < ts.lines.length := by omega
  have hmod : ((ts.oldest_idx + 1) % ts.lines.length + j) % ts.lines.length =
      (ts.oldest_idx + 1 + j) % ts.lines.length := Nat.mod_add_mod _ _ _
  rw [TailState.newline, TailState.line]
  simp only [List.length_set, hmod]
  by_cases hend : j + 1 = ts.lines.length
  · have hidx : (ts.oldest_idx + 1 + j) % ts.lines.length = ts.oldest_idx := by
      have : ts.oldest_idx + 1 + j = ts.oldest_idx + ts.lines.length := by omega
      rw [this, Nat.add_mod_right, Nat.mod_eq_of_lt ho]
    rw [hidx, if_pos hend]
    exact getD_set_self _ _ _ ho
  · have hcase := mod_two_cases (ts.oldest_idx + 1 + j) ts.lines.length hL (by omega)
    have hne : ts.oldest_idx ≠ (ts.oldest_idx + 1 + j) % ts.lines.length := by
      rw [hcase]
      split <;> omega
    rw [if_neg hend, getD_set_ne _ _ _ _ hne, TailState.line]
    congr 1
    rw [hcase, mod_two_cases (ts.oldest_idx + (j + 1)) ts.lines.length hL (by omega)]
    split <;> split <;> omega

/-- Ring slot contents after mapping a function over the slot array. -/
theorem TailState.line_map (ts : TailState) (f : Nat → Nat) (j : Nat)
    (hL : 0 < ts.lines.length) :
    TailState.line { ts with lines := ts.lines.map f } j = f (ts.line j) := by
  have hlt : (ts.oldest_idx + j) % ts.lines.length < ts.lines.length :=
    Nat.mod_lt _ hL
  rw [TailState.line, TailState.line]
  simp only [List.length_map]
  rw [List.getD_eq_getElem (ts.lines.map f) 0 (by simpa using hlt), List.getElem_map,
    List.getD_eq_getElem ts.lines 0 hlt]

/-- Ring slot contents of the fresh ring built by `switch_to_tail_mode`. -/
theorem TailState.line_replicate (o n j : Nat) (head : Buf) (nl nt : Nat) :
    TailState.line ⟨head, List.replicate n 0, o, nl, nt⟩ j = 0 := by
  rw [TailState.line]
  simp only
  by_cases h : (o + j) % (List.replicate (n : Nat) (0 : Nat)).length < n
  · rw [List.getD_eq_getElem _ 0 (by simpa using h)]
    simp
  · rw [List.getD_eq_default]
    simp only [List.length_replicate] at h ⊢
    omega

/-! ### Head/tail writer: segment arithmetic lemmas -/

theorem joinNl_append (a b : List (List Nat)) :
    joinNl (a ++ b) = joinNl a ++ joinNl b := by
  rw [joinNl, joinNl, joinNl, List.map_append, List.flatten_append]

theorem segLen_agree (tl : List (List Nat)) (l : List Nat) (k : Nat)
    (h : k ≤ tl.length) : segLen (tl ++ [l]) k = segLen tl k := by
  rw [segLen, segLen, List.take_append_of_le_length h]

theorem segLen_mono (tl : List (List Nat)) {k k2 : Nat} (h : k ≤ k2) :
    segLen tl k ≤ segLen tl k2 := by
  rw [segLen, segLen]
  have : tl.take k = (tl.take k2).take k := by rw [List.take_take, Nat.min_eq_left h]
  rw [this]
  have := List.take_append_drop k (tl.take k2)
  calc (joinNl ((tl.take k2).take k)).length
      ≤ (joinNl ((tl.take k2).take k)).length + (joinNl ((tl.take k2).drop k)).length := by omega
    _ = (joinNl (tl.take k2)).length := by
        rw [← List.length_append, ← joinNl_append, List.take_append_drop]

theorem segLen_all (tl : List (List Nat)) : segLen tl tl.length = (joinNl tl).length := by
  rw [segLen, List.take_all_of_le (le_refl _)]

theorem segLen_snoc_all (tl : List (List Nat)) (l : List Nat) :
    segLen (tl ++ [l]) (tl.length + 1) = (joinNl tl).length + l.length + 1 := by
  rw [segLen, List.take_all_of_le (by simp), joinNl_append]
  simp [joinNl]
  omega

theorem joinNl_drop_segLen (tl : List (List Nat)) (k : Nat) :
    (joinNl tl).drop (segLen tl k) = joinNl (tl.drop k) := by
  have h : joinNl tl = joinNl (tl.take k) ++ joinNl (tl.drop k) := by
    rw [← joinNl_append, List.take_append_drop]
  rw [segLen, h, List.drop_left]

/-! ### Head/tail writer: step lemmas -/

theorem make_room_head_inv (out : List Nat) (buf aux1 : Buf) (aux2 : List Nat)
    (st : HTState) (hst : ∀ ts, st ≠ .tail ts) :
    (HeadTail.make_room ⟨out, buf, st, aux1, aux2⟩).state = st ∧
    (HeadTail.make_room ⟨out, buf, st, aux1, aux2⟩).out ++
      (HeadTail.make_room ⟨out, buf, st, aux1, aux2⟩).buf.data = out ++ buf.data := by
  rw [HeadTail.make_room]
  split
  · exact ⟨rfl, rfl⟩
  · cases st with
    | passthrough => simp [HeadTail.flush, Buf.clear]
    | head n ntl => simp [HeadTail.flush, Buf.clear]
    | tail ts => exact absurd rfl (hst ts)

theorem compact_tail_rep (out : List Nat) (buf aux1 : Buf) (aux2 : List Nat)
    (ts : TailState) (ntail : Nat) (tl : List (List Nat)) (dropped : Nat)
    (hrep : TailRep ntail tl dropped ts buf.data) :
    ∃ ts2 dropped2,
      HeadTail.compact ⟨out, buf, .tail ts, aux1, aux2⟩ =
        ⟨out, ⟨(joinNl tl).drop dropped2, buf.cap⟩, .tail ts2, aux1, aux2⟩ ∧
      ts2.head = ts.head ∧
      TailRep ntail tl dropped2 ts2 ((joinNl tl).drop dropped2) := by
  obtain ⟨hnt, hnew, hlen, hold, hdle, hbuf, hline⟩ := hrep
  have hL : 0 < ts.lines.length := by omega
  have e0 : ts.oldest_line = segLen tl (tl.length - ntail) - dropped := by
    have h0 := hline 0 (by omega)
    rw [TailState.oldest_line, h0]
    simp
  have hbufeq : buf = ⟨(joinNl tl).drop dropped, buf.cap⟩ := by
    cases buf
    simp only at hbuf
    rw [hbuf]
  rw [HeadTail.compact]
  simp only
  split
  · rename_i hzero
    refine ⟨ts, dropped, ?_, rfl, hnt, hnew, hlen, hold, hdle, rfl, hline⟩
    rw [← hbufeq]
  · rename_i hnz
    have hsum : dropped + ts.oldest_line = segLen tl (tl.length - ntail) := by
      rw [e0]; omega
    refine ⟨{ ts with lines := ts.lines.map (fun p => p - ts.oldest_line) },
      segLen tl (tl.length - ntail), ?_, rfl,
      hnt, hnew, by simpa using hlen, hold, le_refl _, rfl, ?_⟩
    · have hdata : buf.data.drop ts.oldest_line =
          (joinNl tl).drop (segLen tl (tl.length - ntail)) := by
        rw [hbuf, List.drop_drop]
        rw [hsum]
      rw [Buf.drainTo, hdata]
    · intro j hj
      have hmap := TailState.line_map ts (fun p => p - ts.oldest_line) j hL
      simp only at hmap
      rw [hmap, hline j hj]
      have hjle : segLen tl (tl.length - ntail) ≤ segLen tl (tl.length + j - ntail) :=
        segLen_mono tl (by omega)
      omega

theorem make_room_tail_rep (out : List Nat) (buf aux1 : Buf) (aux2 : List Nat)
    (ts : TailState) (ntail : Nat) (tl : List (List Nat)) (dropped : Nat)
    (hrep : TailRep ntail tl dropped ts buf.data) :
    ∃ ts2 dropped2,
      HeadTail.make_room ⟨out, buf, .tail ts, aux1, aux2⟩ =
        ⟨out, ⟨(joinNl tl).drop dropped2, buf.cap⟩, .tail ts2, aux1, aux2⟩ ∧
      ts2.head = ts.head ∧
      TailRep ntail tl dropped2 ts2 ((joinNl tl).drop dropped2) := by
  have hbufeq : buf = ⟨(joinNl tl).drop dropped, buf.cap⟩ := by
    cases buf
    have hbuf := hrep.2.2.2.2.2.1
    simp only at hbuf
    rw [hbuf]
  have hrep2 : TailRep ntail tl dropped ts ((joinNl tl).drop dropped) :=
    hrep.2.2.2.2.2.1 ▸ hrep
  rw [HeadTail.make_room]
  split
  · exact ⟨ts, dropped, by rw [← hbufeq], rfl, hrep2⟩
  · simp only
    split
    · exact compact_tail_rep out buf aux1 aux2 ts ntail tl dropped hrep
    · exact ⟨ts, dropped, by rw [← hbufeq], rfl, hrep2⟩

theorem tailrep_newline (ts : TailState) (ntail : Nat) (tl : List (List Nat))
    (dropped : Nat) (l buf : List Nat)
    (hrep : TailRep ntail tl dropped ts buf) :
    TailRep ntail (tl ++ [l]) dropped
      (ts.newline ((buf ++ l) ++ [10]).length) ((buf ++ l) ++ [10]) := by
  obtain ⟨hnt, hnew, hlen, hold, hdle, hbuf, hline⟩ := hrep
  have hL : 0 < ts.lines.length := by omega
  have ho : ts.oldest_idx < ts.lines.length := by
    rw [hold, hlen]
    exact Nat.mod_lt _ (by omega)
  have hdtot : dropped ≤ (joinNl tl).length := by
    calc dropped ≤ segLen tl (tl.length - ntail) := hdle
      _ ≤ segLen tl tl.length := segLen_mono tl (by omega)
      _ = (joinNl tl).length := segLen_all tl
  have hjoin : joinNl (tl ++ [l]) = joinNl tl ++ (l ++ [10]) := by
    rw [joinNl_append]
    simp [joinNl]
  have hbuf2 : (buf ++ l) ++ [10] = (joinNl (tl ++ [l])).drop dropped := by
    rw [hjoin, hbuf, List.append_assoc, ← List.drop_append_of_le_length hdtot]
  have hpos : ((buf ++ l) ++ [10]).length = segLen (tl ++ [l]) (tl.length + 1) - dropped := by
    rw [segLen_snoc_all]
    simp [hbuf]
    omega
  refine ⟨by simp [TailState.newline, hnt],
    by simp [TailState.newline, hnew],
    by simp [TailState.newline, hlen],
    ?_, ?_, hbuf2, ?_⟩
  · show (ts.oldest_idx + 1) % ts.lines.length = _
    rw [hold, hlen]
    simp [Nat.mod_add_mod]
  · calc dropped ≤ segLen tl (tl.length - ntail) := hdle
      _ = segLen (tl ++ [l]) (tl.length - ntail) := (segLen_agree tl l _ (by omega)).symm
      _ ≤ segLen (tl ++ [l]) ((tl ++ [l]).length - ntail) := segLen_mono _ (by simp; omega)
  · intro j hj
    have hj' : j < ts.lines.length := by omega
    rw [TailState.line_newline ts _ ho j hj']
    by_cases hend : j + 1 = ts.lines.length
    · rw [if_pos hend, hpos]
      have hidx : (tl ++ [l]).length + j - ntail = tl.length + 1 := by
        simp only [List.length_append, List.length_cons, List.length_nil]
        omega
      rw [hidx]
    · rw [if_neg hend, hline (j + 1) (by omega)]
      have hk : tl.length + (j + 1) - ntail ≤ tl.length := by omega
      have hidx : (tl ++ [l]).length + j - ntail = tl.length + (j + 1) - ntail := by
        simp only [List.length_append, List.length_cons, List.length_nil]
        omega
      rw [hidx, segLen_agree tl l _ hk]

theorem feedLine_tail (out : List Nat) (buf aux1 : Buf) (aux2 : List Nat)
    (ts : TailState) (ntail : Nat) (tl : List (List Nat)) (dropped : Nat)
    (l : List Nat) (hrep : TailRep ntail tl dropped ts buf.data) :
    ∃ ts2 dropped2 cap2,
      HeadTail.feedLine ⟨out, buf, .tail ts, aux1, aux2⟩ l =
        some ⟨out, ⟨(joinNl (tl ++ [l])).drop dropped2, cap2⟩, .tail ts2, aux1, aux2⟩ ∧
      ts2.head = ts.head ∧
      TailRep ntail (tl ++ [l]) dropped2 ts2 ((joinNl (tl ++ [l])).drop dropped2) := by
  have hrep2 := tailrep_newline ts ntail tl dropped l buf.data hrep
  have hstep : HeadTail.feedLine ⟨out, buf, .tail ts, aux1, aux2⟩ l =
      some (HeadTail.make_room ⟨out,
        ⟨(buf.data ++ l) ++ [10], growCap (growCap buf.cap (buf.len + l.length))
          ((buf.data ++ l).length + 1)⟩,
        .tail (ts.newline ((buf.data ++ l) ++ [10]).length), aux1, aux2⟩) := rfl
  obtain ⟨ts2, dropped2, heq, hhead, hrep3⟩ :=
    make_room_tail_rep out
      ⟨(buf.data ++ l) ++ [10], growCap (growCap buf.cap (buf.len + l.length))
        ((buf.data ++ l).length + 1)⟩
      aux1 aux2 (ts.newline ((buf.data ++ l) ++ [10]).length) ntail (tl ++ [l]) dropped
      hrep2
  refine ⟨ts2, dropped2,
    growCap (growCap buf.cap (buf.len + l.length)) ((buf.data ++ l).length + 1), ?_, ?_, hrep3⟩
  · rw [hstep, heq]
  · rw [hhead]
    simp [TailState.newline]

theorem make_room_fresh_tail (out : List Nat) (cap : Nat) (head : Buf) (ntl : Nat) :
    HeadTail.make_room ⟨out, ⟨[], cap⟩,
        .tail ⟨head, List.replicate (ntl + 1) 0, 0, 0, ntl⟩, Buf.empty, []⟩ =
      ⟨out, ⟨[], cap⟩, .tail ⟨head, List.replicate (ntl + 1) 0, 0, 0, ntl⟩, Buf.empty, []⟩ := by
  have h0 : TailState.oldest_line ⟨head, List.replicate (ntl + 1) 0, 0, 0, ntl⟩ = 0 := by
    rw [TailState.oldest_line]
    exact TailState.line_replicate 0 (ntl + 1) 0 head 0 ntl
  rw [HeadTail.make_room]
  split
  · rfl
  · simp only
    split
    · rw [HeadTail.compact]
      simp only
      rw [if_pos h0]
    · rfl

theorem feedLine_head_more (out : List Nat) (buf aux1 : Buf) (aux2 : List Nat)
    (n ntl : Nat) (l : List Nat) :
    ∃ ht2, HeadTail.feedLine ⟨out, buf, .head (n + 2) ntl, aux1, aux2⟩ l = some ht2 ∧
      ht2.state = .head (n + 1) ntl ∧
      ht2.out ++ ht2.buf.data = (out ++ buf.data) ++ (l ++ [10]) := by
  have hstep : HeadTail.feedLine ⟨out, buf, .head (n + 2) ntl, aux1, aux2⟩ l =
      some (HeadTail.make_room ⟨out,
        ⟨(buf.data ++ l) ++ [10], growCap (growCap buf.cap (buf.len + l.length))
          ((buf.data ++ l).length + 1)⟩,
        .head (n + 1) ntl, aux1, aux2⟩) := rfl
  obtain ⟨hst, hob⟩ := make_room_head_inv out
    ⟨(buf.data ++ l) ++ [10], growCap (growCap buf.cap (buf.len + l.length))
      ((buf.data ++ l).length + 1)⟩
    aux1 aux2 (.head (n + 1) ntl) (by intro ts h; exact HTState.noConfusion h)
  refine ⟨_, hstep, hst, ?_⟩
  rw [hob]
  simp

theorem feedLine_head_one (out : List Nat) (buf aux1 : Buf) (aux2 : List Nat)
    (ntl : Nat) (l : List Nat) :
    HeadTail.feedLine ⟨out, buf, .head 1 ntl, aux1, aux2⟩ l =
      some ⟨out, ⟨[], aux1.cap⟩,
        .tail ⟨⟨(buf.data ++ l) ++ [10], growCap (growCap buf.cap (buf.len + l.length))
            ((buf.data ++ l).length + 1)⟩,
          List.replicate (ntl + 1) 0, 0, 0, ntl⟩, Buf.empty, []⟩ := by
  have hstep : HeadTail.feedLine ⟨out, buf, .head 1 ntl, aux1, aux2⟩ l =
      some (HeadTail.make_room ⟨out, ⟨[], aux1.cap⟩,
        .tail ⟨⟨(buf.data ++ l) ++ [10], growCap (growCap buf.cap (buf.len + l.length))
            ((buf.data ++ l).length + 1)⟩,
          List.replicate (ntl + 1) 0, 0, 0, ntl⟩, Buf.empty, []⟩) := rfl
  rw [hstep, make_room_fresh_tail]

/-- The fresh tail representation right after `switch_to_tail_mode`. -/
theorem tailrep_fresh (head : Buf) (ntl : Nat) :
    TailRep ntl [] 0 ⟨head, List.replicate (ntl + 1) 0, 0, 0, ntl⟩ [] := by
  refine ⟨rfl, rfl, by simp, by simp, by simp [segLen, joinNl], by simp [joinNl], ?_⟩
  intro j hj
  rw [TailState.line_replicate]
  simp [segLen, joinNl]

theorem regionInv_step (nhead ntail : Nat) (fed : List (List Nat)) (ht : HeadTail)
    (hinv : RegionInv nhead ntail fed ht) (l : List Nat) :
    ∃ ht2, ht.feedLine l = some ht2 ∧ RegionInv nhead ntail (fed ++ [l]) ht2 := by
  obtain ⟨out, buf, st, aux1, aux2⟩ := ht
  rw [RegionInv] at hinv
  by_cases hlt : fed.length < nhead
  · rw [if_pos hlt] at hinv
    obtain ⟨hst, hob⟩ := hinv
    simp only at hst
    subst hst
    rcases Nat.lt_or_ge (fed.length + 1) nhead with hlt2 | hge2
    · -- still in head mode afterwards
      have hn2 : nhead - fed.length = (nhead - fed.length - 2) + 2 := by omega
      rw [hn2]
      obtain ⟨ht2, hfeed, hst2, hob2⟩ :=
        feedLine_head_more out buf aux1 aux2 (nhead - fed.length - 2) ntail l
      refine ⟨ht2, hfeed, ?_⟩
      rw [RegionInv, if_pos (by simp; omega)]
      constructor
      · rw [hst2]
        congr 1
        simp
        omega
      · rw [hob2, hob, joinNl_append]
        simp [joinNl]
    · -- this line completes the head
      have hone : nhead - fed.length = 1 := by omega
      rw [hone]
      refine ⟨_, feedLine_head_one out buf aux1 aux2 ntail l, ?_⟩
      rw [RegionInv, if_neg (by simp; omega)]
      refine ⟨_, 0, rfl, ?_, ?_⟩
      · have htake : (fed ++ [l]).take nhead = fed ++ [l] :=
          List.take_of_length_le (by simp; omega)
        rw [htake, joinNl_append]
        simp only
        rw [← hob]
        simp [joinNl]
      · have hdrop : (fed ++ [l]).drop nhead = [] :=
          List.drop_eq_nil_of_le (by simp; omega)
        rw [hdrop]
        exact tailrep_fresh _ ntail
  · rw [if_neg hlt] at hinv
    obtain ⟨ts, dropped, hst, hhead, hrep⟩ := hinv
    simp only at hst
    subst hst
    obtain ⟨ts2, dropped2, cap2, hfeed, hts2head, hrep2⟩ :=
      feedLine_tail out buf aux1 aux2 ts ntail (fed.drop nhead) dropped l hrep
    refine ⟨_, hfeed, ?_⟩
    rw [RegionInv, if_neg (by simp; omega)]
    refine ⟨ts2, dropped2, rfl, ?_, ?_⟩
    · simp only
      rw [hts2head, List.take_append_of_le_length (by omega)]
      exact hhead
    · have hdrop : (fed ++ [l]).drop nhead = fed.drop nhead ++ [l] :=
        List.drop_append_of_le_length (by omega)
      rw [hdrop]
      exact hrep2

theorem regionInv_init (cap nhead ntail : Nat) :
    ∃ ht1, (HeadTail.with_capacity cap).head_tail nhead ntail = some ht1 ∧
      RegionInv nhead ntail [] ht1 := by
  rw [HeadTail.with_capacity, HeadTail.head_tail]
  simp only
  by_cases h : 0 < nhead
  · rw [if_pos h]
    refine ⟨_, rfl, ?_⟩
    rw [RegionInv, if_pos (by simpa using h)]
    exact ⟨by simp, by simp [joinNl]⟩
  · rw [if_neg h]
    refine ⟨_, rfl, ?_⟩
    rw [RegionInv, if_neg (by simp; omega)]
    rw [HeadTail.switch_to_tail_mode]
    refine ⟨_, 0, rfl, by simp [Buf.clear, joinNl], ?_⟩
    simp only [Buf.clear, List.drop_nil]
    exact tailrep_fresh _ ntail

theorem regionInv_run (nhead ntail : Nat) (rest : List (List Nat)) :
    ∀ (fed : List (List Nat)) (ht : HeadTail), RegionInv nhead ntail fed ht →
      ∃ ht2, ht.feedLines rest = some ht2 ∧ RegionInv nhead ntail (fed ++ rest) ht2 := by
  induction rest with
  | nil =>
    intro fed ht hinv
    exact ⟨ht, rfl, by simpa using hinv⟩
  | cons l rest ih =>
    intro fed ht hinv
    obtain ⟨ht1, hfeed, hinv1⟩ := regionInv_step nhead ntail fed ht hinv l
    obtain ⟨ht2, hrun, hinv2⟩ := ih (fed ++ [l]) ht1 hinv1
    refine ⟨ht2, ?_, by simpa using hinv2⟩
    rw [HeadTail.feedLines, List.foldlM_cons, hfeed]
    simpa [HeadTail.feedLines] using hrun

theorem regionInv_finish (nhead ntail : Nat) (ls : List (List Nat)) (ht : HeadTail)
    (hinv : RegionInv nhead ntail ls ht) :
    ∃ ht3 t, ht.finish_tail = some (ht3, t) ∧
      ht3.out ++ ht3.buf.data = joinNl (ls.take nhead) ∧
      t.asRef = joinNl (ls.drop (max nhead (ls.length - ntail))) ∧
      t.skipped = ls.length - nhead - ntail := by
  obtain ⟨out, buf, st, aux1, aux2⟩ := ht
  rw [RegionInv] at hinv
  by_cases hlt : ls.length < nhead
  · rw [if_pos hlt] at hinv
    obtain ⟨hst, hob⟩ := hinv
    simp only at hst
    subst hst
    refine ⟨_, _, rfl, ?_, ?_, by simp; omega⟩
    · rw [List.take_of_length_le (by omega)]
      exact hob
    · rw [List.drop_eq_nil_of_le (show ls.length ≤ max nhead (ls.length - ntail) by omega)]
      simp [TailResult.asRef, Buf.clear, joinNl]
  · rw [if_neg hlt] at hinv
    obtain ⟨ts, dropped, hst, hhead, hrep⟩ := hinv
    simp only at hst
    subst hst
    obtain ⟨hnt, hnew, hlen, hold, hdle, hbuf, hline⟩ := hrep
    have hm : (ls.drop nhead).length = ls.length - nhead := by simp
    have e0 : ts.oldest_line =
        segLen (ls.drop nhead) ((ls.drop nhead).length - ntail) - dropped := by
      have h0 := hline 0 (by omega)
      rw [TailState.oldest_line, h0]
      simp
    refine ⟨_, _, rfl, hhead, ?_, ?_⟩
    · rw [TailResult.asRef]
      simp only
      rw [hbuf, e0, List.drop_drop]
      have harg : dropped + (segLen (ls.drop nhead) ((ls.drop nhead).length - ntail) - dropped) =
          segLen (ls.drop nhead) ((ls.drop nhead).length - ntail) := by omega
      rw [harg, joinNl_drop_segLen, List.drop_drop]
      have harg2 : nhead + ((ls.drop nhead).length - ntail) = max nhead (ls.length - ntail) := by
        simp only [List.length_drop]
        omega
      rw [harg2]
    · simp only
      omega

/-- C1 (amended): over a region bracketed by `head_tail(nhead, ntail)` and
`finish_tail` on a fresh writer of any capacity, fed newline-free lines via
`put`/`nl`, the emitted bytes are the first `nhead` input lines verbatim
followed by those of the last `ntail` input lines that are not already in
the head (the lines from index `max nhead (total - ntail)` on), and the
skipped count equals `max(0, total - nhead - ntail)`. -/
theorem head_tail_region_output (cap nhead ntail : Nat) (ls : List (List Nat))
    (hnl : ∀ l ∈ ls, 10 ∉ l) :
    runRegion cap nhead ntail ls =
      some (joinNl (ls.take nhead),
            joinNl (ls.drop (max nhead (ls.length - ntail))),
            ls.length - nhead - ntail) := by
  obtain ⟨ht1, hstart, hinv0⟩ := regionInv_init cap nhead ntail
  obtain ⟨ht2, hrun, hinv⟩ := regionInv_run nhead ntail ls [] ht1 hinv0
  obtain ⟨ht3, t, hfin, hhead, htail, hskip⟩ :=
    regionInv_finish nhead ntail ls ht2 (by simpa using hinv)
  rw [runRegion]
  simp only [hstart, Option.bind_eq_bind, Option.some_bind, hrun, hfin]
  rw [hhead, htail, hskip]
  rfl

/-- C1 counterexample: with `nhead = ntail = 1` and a single input line,
the writer emits the line once; the claim as stated would have the first
`nhead` lines followed again by the last `ntail` lines, duplicating the
overlap. -/
theorem head_tail_region_counterexample :
    runRegion 100 1 1 [[97]] = some ([97, 10], [], 0) ∧
    runRegion 100 1 1 [[97]] ≠ some ([97, 10], joinNl [[97]], 0) := by
  exact ⟨rfl, by decide⟩

/-- Witness for C1's amended theorem: six lines, `nhead = ntail = 2`. -/
theorem head_tail_region_output_witness :
    runRegion 100 2 2 [[65], [66], [67], [68], [69], [70]] =
      some (joinNl [[65], [66]], joinNl [[69], [70]], 2) := by
  have h := head_tail_region_output 100 2 2 [[65], [66], [67], [68], [69], [70]] (by decide)
  rw [h]
  rfl

/-- Witness for C8's amended theorem: a decimal microsecond resolution
(`v = 6`), a binary resolution (`v = 0x85`), and a five-unit packet. -/
theorem ng_resolution_and_packet_timestamp_witness :
    (∃ d, applyIfaceOption (ngInit ⟨0, 0⟩).timestamp_resolution (.ifTsResol 6) = some d ∧
      d.toNanos * 10 ^ (6 &&& 0x7F) = 1000000000) ∧
    (∃ d, applyIfaceOption (ngInit ⟨0, 0⟩).timestamp_resolution (.ifTsResol 0x85) = some d ∧
      d.toNanos = 1000000000 / 2 ^ (0x85 &&& 0x7F)) ∧
    ({ linktype := none, timestamp_resolution := Duration.oneMicro,
        timestamp := ⟨0, 5000⟩ } : NgState).timestamp.toNanos =
      (ngInit ⟨0, 0⟩).timestamp_resolution.toNanos * 5 :=
  ⟨(ng_resolution_and_packet_timestamp (ngInit ⟨0, 0⟩) 6 5 []).1 (by decide) (by decide),
   (ng_resolution_and_packet_timestamp (ngInit ⟨0, 0⟩) 0x85 5 []).2.1 (by decide) (by decide),
   (ng_resolution_and_packet_timestamp (ngInit ⟨0, 0⟩) 6 5 []).2.2
     { linktype := none, timestamp_resolution := Duration.oneMicro, timestamp := ⟨0, 5000⟩ }
     none rfl⟩

/-- C6 counterexample: on a fresh writer (passthrough state) `finish_tail`
panics (`can only call finish_tail() in tail mode`), so it is not callable
from any state. -/
theorem finish_tail_passthrough_counterexample :
    (HeadTail.with_capacity 100).finish_tail = none := rfl

/-- C6 (amended): `finish_tail` called in `Head` or `Tail` state (with the
nonempty ring every reachable tail state has) returns without panicking:
the captured tail bytes with `skipped = max(0, seen_newlines - ntail)`
(zero from `Head`, where the tail was never reached), and afterwards the
writer is in `Passthrough` with the head snapshot as the active buffer; in
`Passthrough` state it panics. -/
theorem finish_tail_behavior (ht : HeadTail) :
    (∀ n ntl, ht.state = .head n ntl →
      ∃ ht2 t, ht.finish_tail = some (ht2, t) ∧ t.asRef = [] ∧ t.skipped = 0 ∧
        ht2.state = .passthrough ∧ ht2.buf = ht.buf ∧ ht2.out = ht.out) ∧
    (∀ ts, ht.state = .tail ts → ts.lines ≠ [] →
      ∃ ht2 t, ht.finish_tail = some (ht2, t) ∧
        t.asRef = ht.buf.data.drop ts.oldest_line ∧
        t.skipped = ts.newlines - ts.ntail ∧
        ht2.state = .passthrough ∧ ht2.buf = ts.head ∧ ht2.out = ht.out) ∧
    (ht.state = .passthrough → ht.finish_tail = none) := by
  obtain ⟨out, buf, st, aux1, aux2⟩ := ht
  refine ⟨?_, ?_, ?_⟩
  · intro n ntl hst
    simp only at hst
    subst hst
    exact ⟨_, _, rfl, rfl, rfl, rfl, rfl, rfl⟩
  · intro ts hst hne
    simp only at hst
    subst hst
    exact ⟨_, _, rfl, rfl, rfl, rfl, rfl, rfl⟩
  · intro hst
    simp only at hst
    subst hst
    rfl

/-- Witness for C6 on a concrete head-state and a concrete tail-state writer. -/
theorem finish_tail_behavior_witness :
    (∃ ht2 t,
      (⟨[9], ⟨[5], 4⟩, .head 2 3, Buf.empty, []⟩ : HeadTail).finish_tail = some (ht2, t) ∧
      t.asRef = [] ∧ t.skipped = 0 ∧ ht2.state = .passthrough ∧
      ht2.buf = (⟨[9], ⟨[5], 4⟩, .head 2 3, Buf.empty, []⟩ : HeadTail).buf ∧
      ht2.out = (⟨[9], ⟨[5], 4⟩, .head 2 3, Buf.empty, []⟩ : HeadTail).out) ∧
    (∃ ht2 t,
      (⟨[], ⟨[5, 10], 4⟩, .tail ⟨⟨[72], 8⟩, [2, 0], 1, 7, 1⟩, Buf.empty, []⟩ :
          HeadTail).finish_tail = some (ht2, t) ∧
      t.asRef = (⟨[], ⟨[5, 10], 4⟩, .tail ⟨⟨[72], 8⟩, [2, 0], 1, 7, 1⟩, Buf.empty, []⟩ :
          HeadTail).buf.data.drop (TailState.oldest_line ⟨⟨[72], 8⟩, [2, 0], 1, 7, 1⟩) ∧
      t.skipped = 7 - 1 ∧ ht2.state = .passthrough ∧
      ht2.buf = (⟨[72], 8⟩ : Buf) ∧ ht2.out = []) :=
  ⟨(finish_tail_behavior _).1 2 3 rfl,
   (finish_tail_behavior _).2.1 ⟨⟨[72], 8⟩, [2, 0], 1, 7, 1⟩ rfl (by decide)⟩

/-! ### Well-formedness preservation lemmas for claim C10 -/

theorem wf_mono (ts : TailState) (n n2 : Nat) (h : ts.wf n) (hle : n ≤ n2) :
    ts.wf n2 :=
  ⟨h.1, h.2.1, h.2.2.1, le_trans h.2.2.2 hle⟩

theorem wf_newline (ts : TailState) (buflen : Nat) (h : ts.wf buflen) :
    (ts.newline (buflen + 1)).wf (buflen + 1) := by
  obtain ⟨hlen, ho, hsort, hnew⟩ := h
  have hL : 0 < ts.lines.length := by omega
  refine ⟨by simpa [TailState.newline] using hlen, ?_, ?_, ?_⟩
  · simp only [TailState.newline, List.length_set]
    exact Nat.mod_lt _ hL
  · intro j hj
    simp only [TailState.newline, List.length_set] at hj
    have l1 := TailState.line_newline ts (buflen + 1) ho j (by omega)
    have l2 := TailState.line_newline ts (buflen + 1) ho (j + 1) (by omega)
    rw [l1, l2]
    by_cases h2 : j + 1 + 1 = ts.lines.length
    · rw [if_neg (by omega), if_pos h2]
      have hje : ts.line (j + 1) = ts.newest_line := by
        rw [TailState.newest_line]
        congr 1
        omega
      rw [hje]
      omega
    · rw [if_neg (by omega), if_neg h2]
      exact hsort (j + 1) (by omega)
  · rw [TailState.newest_line]
    have hL2 : (ts.newline (buflen + 1)).lines.length = ts.lines.length := by
      simp [TailState.newline]
    rw [hL2, TailState.line_newline ts (buflen + 1) ho (ts.lines.length - 1) (by omega),
      if_pos (by omega)]

theorem wf_fresh (head : Buf) (ntl : Nat) :
    TailState.wf ⟨head, List.replicate (ntl + 1) 0, 0, 0, ntl⟩ 0 := by
  refine ⟨by simp, by simp, ?_, ?_⟩
  · intro j hj
    rw [TailState.line_replicate, TailState.line_replicate]
  · rw [TailState.newest_line, TailState.line_replicate]

theorem compact_tailInv (ht : HeadTail) (hinv : ht.tailInv) :
    (ht.compact).tailInv ∧
    (∀ ts, ht.state = .tail ts →
      ∃ ts2, (ht.compact).state = .tail ts2 ∧
        (ht.compact).buf.data.drop ts2.oldest_line =
          ht.buf.data.drop ts.oldest_line) := by
  obtain ⟨out, buf, st, aux1, aux2⟩ := ht
  cases st with
  | passthrough =>
    exact ⟨hinv, fun ts h => absurd h (by simp)⟩
  | head n ntl =>
    exact ⟨hinv, fun ts h => absurd h (by simp)⟩
  | tail ts =>
    obtain ⟨hlen, ho, hsort, hnew⟩ := hinv ts rfl
    have hL : 0 < ts.lines.length := by omega
    rw [HeadTail.compact]
    simp only
    by_cases h0 : ts.oldest_line = 0
    · rw [if_pos h0]
      refine ⟨hinv, fun ts' h => ?_⟩
      simp only at h
      cases h
      exact ⟨ts, rfl, rfl⟩
    · rw [if_neg h0]
      have hmap : ∀ j, TailState.line
          { ts with lines := ts.lines.map (fun p => p - ts.oldest_line) } j =
          ts.line j - ts.oldest_line := by
        intro j
        have := TailState.line_map ts (fun p => p - ts.oldest_line) j hL
        simpa using this
      constructor
      · intro ts' h
        simp only at h
        cases h
        refine ⟨by simpa using hlen, by simpa using ho, ?_, ?_⟩
        · intro j hj
          simp only [List.length_map] at hj
          rw [hmap j, hmap (j + 1)]
          exact Nat.sub_le_sub_right (hsort j hj) _
        · rw [TailState.newest_line]
          simp only [List.length_map, Buf.drainTo, Buf.len, List.length_drop]
          rw [hmap]
          rw [TailState.newest_line] at hnew
          simp only [Buf.len] at hnew
          omega
      · intro ts' h
        cases h
        refine ⟨_, rfl, ?_⟩
        have hold : TailState.oldest_line
            { ts with lines := ts.lines.map (fun p => p - ts.oldest_line) } = 0 := by
          rw [TailState.oldest_line, hmap 0, ← TailState.oldest_line, Nat.sub_self]
        rw [hold]
        simp [Buf.drainTo]

theorem flush_tailInv (ht : HeadTail) (hinv : ht.tailInv) : (ht.flush).tailInv := by
  obtain ⟨out, buf, st, aux1, aux2⟩ := ht
  cases st with
  | passthrough => exact fun ts h => absurd h (by simp [HeadTail.flush])
  | head n ntl => exact fun ts h => absurd h (by simp [HeadTail.flush])
  | tail ts =>
    intro ts' h
    simp only [HeadTail.flush] at h
    cases h
    exact hinv ts rfl

theorem make_room_tailInv (ht : HeadTail) (hinv : ht.tailInv) :
    (ht.make_room).tailInv := by
  rw [HeadTail.make_room]
  split
  · exact hinv
  · obtain ⟨out, buf, st, aux1, aux2⟩ := ht
    cases st with
    | passthrough => exact flush_tailInv _ hinv
    | head n ntl => exact flush_tailInv _ hinv
    | tail ts =>
      simp only
      split
      · exact (compact_tailInv _ hinv).1
      · exact hinv

theorem put_tailInv (ht : HeadTail) (hinv : ht.tailInv) (data : List Nat) :
    (ht.put data).tailInv := by
  intro ts h
  simp only [HeadTail.put] at h
  have hwf := hinv ts h
  refine wf_mono ts _ _ hwf ?_
  simp [HeadTail.put, Buf.extend, Buf.len]

theorem nl_tailInv (ht : HeadTail) (hinv : ht.tailInv) (ht2 : HeadTail)
    (h : ht.nl = some ht2) : ht2.tailInv := by
  obtain ⟨out, buf, st, aux1, aux2⟩ := ht
  cases st with
  | passthrough =>
    rw [HeadTail.nl] at h
    simp only [Option.some.injEq] at h
    subst h
    exact make_room_tailInv _ (fun ts h => absurd h (by simp))
  | tail ts =>
    rw [HeadTail.nl] at h
    simp only [Option.some.injEq] at h
    subst h
    refine make_room_tailInv _ ?_
    intro ts' h
    simp only at h
    cases h
    have hwf := hinv ts rfl
    have h2 := wf_newline ts buf.len hwf
    simp only [Buf.len] at h2
    simp only [Buf.push, Buf.len, List.length_append, List.length_cons, List.length_nil]
    exact h2
  | head n ntl =>
    match n, h with
    | Nat.succ (Nat.succ k), h => {
        rw [HeadTail.nl] at h
        simp only [Option.some.injEq] at h
        subst h
        exact make_room_tailInv _ (fun ts h => absurd h (by simp)) }
    | 1, h => {
        rw [HeadTail.nl] at h
        simp only [Option.some.injEq] at h
        subst h
        refine make_room_tailInv _ ?_
        intro ts' hts
        simp only [HeadTail.switch_to_tail_mode] at hts
        cases hts
        simpa [Buf.clear, Buf.len] using wf_fresh _ ntl }

theorem finish_tailInv (ht : HeadTail) (ht2 : HeadTail) (t : TailResult)
    (h : ht.finish_tail = some (ht2, t)) : ht2.tailInv := by
  obtain ⟨out, buf, st, aux1, aux2⟩ := ht
  cases st with
  | passthrough => exact absurd h (by simp [HeadTail.finish_tail])
  | head n ntl =>
    rw [HeadTail.finish_tail] at h
    simp only [Option.some.injEq, Prod.mk.injEq] at h
    obtain ⟨h1, _⟩ := h
    subst h1
    exact fun ts hts => absurd hts (by simp)
  | tail ts =>
    rw [HeadTail.finish_tail] at h
    simp only [Option.some.injEq, Prod.mk.injEq] at h
    obtain ⟨h1, _⟩ := h
    subst h1
    exact fun ts' hts => absurd hts (by simp)

theorem put_tail_tailInv (ht : HeadTail) (hinv : ht.tailInv) (t : TailResult) :
    (ht.put_tail t).tailInv := by
  have hinv1 : ∀ h1 : HeadTail, h1.tailInv →
      (if t.start = 0 ∧ h1.buf.data = [] then
        ((({ h1 with buf := t.buf }, h1.buf) : HeadTail × Buf))
      else ({ h1 with buf := h1.buf.extend t.asRef }, t.buf)).1.tailInv := by
    intro h1 hi
    split
    · rename_i hcond
      intro ts h
      have hwf := hi ts h
      refine wf_mono ts h1.buf.len _ hwf ?_
      have h0 : h1.buf.len = 0 := by
        rw [Buf.len, hcond.2]
        rfl
      omega
    · intro ts h
      have hwf := hi ts h
      refine wf_mono ts h1.buf.len _ hwf ?_
      simp [Buf.extend, Buf.len]
  have hflush : (if ht.buf.cap - ht.buf.len < t.asRef.length then ht.flush else ht).tailInv := by
    split
    · exact flush_tailInv _ hinv
    · exact hinv
  intro ts h
  exact make_room_tailInv _
    (hinv1 (if ht.buf.cap - ht.buf.len < t.asRef.length then ht.flush else ht) hflush) ts h

/-- C10: while the writer is in tail state, every operation (`put`, `nl`,
`compact`, `flush`, `make_room`, `put_tail`, `finish_tail`) preserves the
invariant that the line-start ring has length `ntail + 1`, `oldest_idx` is
in range, the line starts read in ring order from `oldest_idx` are
non-decreasing, and the newest line start is at most the buffer length;
`compact` additionally leaves the bytes from the oldest retained line
start to the end of the buffer unchanged. -/
theorem tail_state_invariant (ht : HeadTail) (hinv : ht.tailInv) :
    (∀ data, (ht.put data).tailInv) ∧
    (∀ ht2, ht.nl = some ht2 → ht2.tailInv) ∧
    (ht.compact).tailInv ∧
    (ht.flush).tailInv ∧
    (ht.make_room).tailInv ∧
    (∀ t, (ht.put_tail t).tailInv) ∧
    (∀ ht2 t, ht.finish_tail = some (ht2, t) → ht2.tailInv) ∧
    (∀ ts, ht.state = .tail ts →
      ∃ ts2, (ht.compact).state = .tail ts2 ∧
        (ht.compact).buf.data.drop ts2.oldest_line =
          ht.buf.data.drop ts.oldest_line) :=
  ⟨fun data => put_tailInv ht hinv data,
   fun ht2 h => nl_tailInv ht hinv ht2 h,
   (compact_tailInv ht hinv).1,
   flush_tailInv ht hinv,
   make_room_tailInv ht hinv,
   fun t => put_tail_tailInv ht hinv t,
   fun ht2 t h => finish_tailInv ht ht2 t h,
   (compact_tailInv ht hinv).2⟩

/-- Witness for C10 on a concrete tail-state writer. -/
theorem tail_state_invariant_witness :
    ((⟨[], ⟨[65, 10, 66], 8⟩, .tail ⟨⟨[72], 8⟩, [3, 0], 1, 5, 1⟩, Buf.empty, []⟩ :
        HeadTail).put [67]).tailInv :=
  (tail_state_invariant
    (⟨[], ⟨[65, 10, 66], 8⟩, .tail ⟨⟨[72], 8⟩, [3, 0], 1, 5, 1⟩, Buf.empty, []⟩ : HeadTail)
    (by
      intro ts h
      simp only at h
      cases h
      refine ⟨rfl, by decide, ?_, ?_⟩
      · intro j hj
        have hj0 : j = 0 := by
          simp only [List.length_cons, List.length_nil] at hj
          omega
        subst hj0
        decide
      · decide)).1 [67]

/-! ### Address round trip: digit rendering and scanning lemmas -/

theorem takeWhile_all_append (p : Char → Bool) (A B : List Char)
    (hA : ∀ x ∈ A, p x = true) :
    (A ++ B).takeWhile p = A ++ B.takeWhile p := by
  induction A with
  | nil => rfl
  | cons a A ih =>
    rw [List.cons_append, List.takeWhile_cons_of_pos (hA a (by simp)),
      ih (fun x hx => hA x (by simp [hx]))]
    rfl

theorem dropWhile_all_append (p : Char → Bool) (A B : List Char)
    (hA : ∀ x ∈ A, p x = true) :
    (A ++ B).dropWhile p = B.dropWhile p := by
  induction A with
  | nil => rfl
  | cons a A ih =>
    rw [List.cons_append, List.dropWhile_cons_of_pos (hA a (by simp))]
    exact ih (fun x hx => hA x (by simp [hx]))

theorem takeWhile_neg_head (p : Char → Bool) (B : List Char)
    (h : ∀ c, B.head? = some c → p c = false) :
    B.takeWhile p = [] ∧ B.dropWhile p = B := by
  cases B with
  | nil => exact ⟨rfl, rfl⟩
  | cons b B =>
    have hb := h b rfl
    simp [List.takeWhile_cons, List.dropWhile_cons, hb]

theorem foldl_congr_chars (f g : Nat → Char → Nat) (l : List Char)
    (h : ∀ acc c, c ∈ l → f acc c = g acc c) :
    ∀ acc, l.foldl f acc = l.foldl g acc := by
  induction l with
  | nil => intro acc; rfl
  | cons c l ih =>
    intro acc
    simp only [List.foldl_cons]
    rw [h acc c (by simp)]
    exact ih (fun a x hx => h a x (by simp [hx])) _

theorem hexDigitLower_dec_facts (d : Nat) (hd : d < 10) :
    isDigitChar (hexDigitLower d) = true ∧ digitVal (hexDigitLower d) = d ∧
    charDigit 10 (hexDigitLower d) = some d ∧ charDigit 16 (hexDigitLower d) = some d := by
  interval_cases d <;> exact ⟨by decide, by decide, by decide, by decide⟩

theorem hexDigitLower_hex_facts (d : Nat) (hd : d < 16) :
    charDigit 16 (hexDigitLower d) = some d ∧ isHexColon (hexDigitLower d) = true := by
  interval_cases d <;> exact ⟨by decide, by decide⟩

/-- Every character of `natToDec n` is a decimal digit character. -/
theorem natToDec_chars (n : Nat) : ∀ c ∈ natToDec n, ∃ d, d < 10 ∧ c = hexDigitLower d := by
  induction n using Nat.strong_induction_on with
  | _ n ih =>
    intro c hc
    rw [natToDec] at hc
    split at hc
    · rename_i h
      simp only [List.mem_singleton] at hc
      exact ⟨n, h, hc⟩
    · rename_i h
      rw [List.mem_append] at hc
      rcases hc with hc | hc
      · exact ih (n / 10) (Nat.div_lt_self (by omega) (by norm_num)) c hc
      · simp only [List.mem_singleton] at hc
        exact ⟨n % 10, Nat.mod_lt _ (by norm_num), hc⟩

theorem natToDec_ne_nil (n : Nat) : natToDec n ≠ [] := by
  rw [natToDec]
  split
  · simp
  · simp

theorem natToHex_chars (n : Nat) : ∀ c ∈ natToHex n, ∃ d, d < 16 ∧ c = hexDigitLower d := by
  induction n using Nat.strong_induction_on with
  | _ n ih =>
    intro c hc
    rw [natToHex] at hc
    split at hc
    · rename_i h
      simp only [List.mem_singleton] at hc
      exact ⟨n, h, hc⟩
    · rename_i h
      rw [List.mem_append] at hc
      rcases hc with hc | hc
      · exact ih (n / 16) (Nat.div_lt_self (by omega) (by norm_num)) c hc
      · simp only [List.mem_singleton] at hc
        exact ⟨n % 16, Nat.mod_lt _ (by norm_num), hc⟩

theorem natToHex_ne_nil (n : Nat) : natToHex n ≠ [] := by
  rw [natToHex]
  split
  · simp
  · simp

/-- Length bound for decimal rendering. -/
theorem natToDec_length_le (k : Nat) : ∀ n, n < 10 ^ k → (natToDec n).length ≤ max k 1 := by
  induction k with
  | zero =>
    intro n hn
    interval_cases n
    rw [natToDec]
    simp
  | succ k ih =>
    intro n hn
    rw [natToDec]
    split
    · simp only [List.length_cons, List.length_nil]
      omega
    · rename_i h
      have hk : 0 < k := by
        by_contra hk0
        have hkk : k = 0 := by omega
        subst hkk
        simp at hn
        omega
      have hp : 10 ^ (k + 1) = 10 ^ k * 10 := pow_succ 10 k
      have hdiv := ih (n / 10) (by omega)
      simp only [List.length_append, List.length_cons, List.length_nil]
      omega

theorem natToHex_length_le (k : Nat) : ∀ n, n < 16 ^ k → (natToHex n).length ≤ max k 1 := by
  induction k with
  | zero =>
    intro n hn
    interval_cases n
    rw [natToHex]
    simp
  | succ k ih =>
    intro n hn
    rw [natToHex]
    split
    · simp only [List.length_cons, List.length_nil]
      omega
    · rename_i h
      have hk : 0 < k := by
        by_contra hk0
        have hkk : k = 0 := by omega
        subst hkk
        simp at hn
        omega
      have hp : 16 ^ (k + 1) = 16 ^ k * 16 := pow_succ 16 k
      have hdiv := ih (n / 16) (by omega)
      simp only [List.length_append, List.length_cons, List.length_nil]
      omega

theorem natToDec_foldl (f : Nat → Char → Nat)
    (hf : ∀ acc d, d < 10 → f acc (hexDigitLower d) = acc * 10 + d) :
    ∀ n acc, (natToDec n).foldl f acc = acc * 10 ^ (natToDec n).length + n := by
  intro n
  induction n using Nat.strong_induction_on with
  | _ n ih =>
    intro acc
    rw [natToDec]
    split
    · rename_i h
      simp only [List.foldl_cons, List.foldl_nil, List.length_cons, List.length_nil]
      rw [hf acc n h]
      ring
    · rename_i h
      rw [List.foldl_append,
        ih (n / 10) (Nat.div_lt_self (by omega) (by norm_num)) acc]
      simp only [List.foldl_cons, List.foldl_nil, List.length_append, List.length_cons,
        List.length_nil]
      rw [hf _ (n % 10) (Nat.mod_lt _ (by norm_num)), pow_succ]
      have hdm := Nat.div_add_mod n 10
      ring_nf
      omega

theorem natToHex_foldl (f : Nat → Char → Nat)
    (hf : ∀ acc d, d < 16 → f acc (hexDigitLower d) = acc * 16 + d) :
    ∀ n acc, (natToHex n).foldl f acc = acc * 16 ^ (natToHex n).length + n := by
  intro n
  induction n using Nat.strong_induction_on with
  | _ n ih =>
    intro acc
    rw [natToHex]
    split
    · rename_i h
      simp only [List.foldl_cons, List.foldl_nil, List.length_cons, List.length_nil]
      rw [hf acc n h]
      ring
    · rename_i h
      rw [List.foldl_append,
        ih (n / 16) (Nat.div_lt_self (by omega) (by norm_num)) acc]
      simp only [List.foldl_cons, List.foldl_nil, List.length_append, List.length_cons,
        List.length_nil]
      rw [hf _ (n % 16) (Nat.mod_lt _ (by norm_num)), pow_succ]
      have hdm := Nat.div_add_mod n 16
      ring_nf
      omega

theorem natToDec_head_pos (n : Nat) (hn : 0 < n) :
    ∃ d, 0 < d ∧ d < 10 ∧ (natToDec n).head? = some (hexDigitLower d) := by
  induction n using Nat.strong_induction_on with
  | _ n ih =>
    rw [natToDec]
    split
    · rename_i h
      exact ⟨n, hn, h, rfl⟩
    · rename_i h
      have hd : 0 < n / 10 := Nat.div_pos (by omega) (by norm_num)
      obtain ⟨d, hd0, hd10, hhead⟩ :=
        ih (n / 10) (Nat.div_lt_self (by omega) (by norm_num)) hd
      refine ⟨d, hd0, hd10, ?_⟩
      cases heq : natToDec (n / 10) with
      | nil => exact absurd heq (natToDec_ne_nil _)
      | cons a t =>
        rw [heq] at hhead
        simp only [List.head?_cons, Option.some.injEq] at hhead
        simp [hhead]

theorem natToDec_zero_prefix_ok (n : Nat) :
    ¬((natToDec n).headD '0' = '0' ∧ 1 < (natToDec n).length) := by
  rintro ⟨hhead, hlen⟩
  by_cases h : n < 10
  · rw [natToDec] at hlen
    rw [dif_pos h] at hlen
    simp at hlen
  · obtain ⟨d, hd0, hd10, hh⟩ := natToDec_head_pos n (by omega)
    cases heq : natToDec n with
    | nil => exact absurd heq (natToDec_ne_nil _)
    | cons a t =>
      rw [heq] at hh hhead
      simp only [List.head?_cons, Option.some.injEq] at hh
      simp only [List.headD_cons] at hhead
      subst hh
      interval_cases d <;> exact absurd hhead (by decide)

theorem readNumber_dec_natToDec (n : Nat) (hn : n < 256) (rest : List Char)
    (hrest : ∀ c, rest.head? = some c → (charDigit 10 c).isSome = false) :
    readNumber 10 3 255 false (natToDec n ++ rest) = some (n, rest) := by
  have hall : ∀ x ∈ natToDec n, (fun c => (charDigit 10 c).isSome) x = true := by
    intro x hx
    obtain ⟨d, hd, rfl⟩ := natToDec_chars n x hx
    simp [(hexDigitLower_dec_facts d hd).2.2.1]
  have htw := takeWhile_all_append (fun c => (charDigit 10 c).isSome) (natToDec n) rest hall
  have hdw := dropWhile_all_append (fun c => (charDigit 10 c).isSome) (natToDec n) rest hall
  obtain ⟨htw2, hdw2⟩ := takeWhile_neg_head (fun c => (charDigit 10 c).isSome) rest hrest
  have hval : (natToDec n).foldl (fun acc c => acc * 10 + (charDigit 10 c).getD 0) 0 = n := by
    have h := natToDec_foldl (fun acc c => acc * 10 + (charDigit 10 c).getD 0)
      (fun acc d hd => by simp [(hexDigitLower_dec_facts d hd).2.2.1]) n 0
    simpa using h
  rw [readNumber]
  simp only [htw, htw2, hdw, hdw2, List.append_nil]
  split
  · rename_i hcontra
    exact absurd hcontra (natToDec_ne_nil n)
  · split
    · rename_i hcontra
      exfalso
      have := natToDec_length_le 3 n (by omega)
      omega
    · split
      · rename_i hcontra
        exfalso
        simp only [Bool.not_false, Bool.true_and, Bool.and_eq_true, decide_eq_true_eq] at hcontra
        exact natToDec_zero_prefix_ok n ⟨hcontra.1, hcontra.2⟩
      · rw [hval]
        split
        · rename_i hcontra
          omega
        · rfl

theorem readNumber_hex_natToHex (g : Nat) (hg : g < 65536) (rest : List Char)
    (hrest : ∀ c, rest.head? = some c → (charDigit 16 c).isSome = false) :
    readNumber 16 4 65535 true (natToHex g ++ rest) = some (g, rest) := by
  have hall : ∀ x ∈ natToHex g, (fun c => (charDigit 16 c).isSome) x = true := by
    intro x hx
    obtain ⟨d, hd, rfl⟩ := natToHex_chars g x hx
    simp [(hexDigitLower_hex_facts d hd).1]
  have htw := takeWhile_all_append (fun c => (charDigit 16 c).isSome) (natToHex g) rest hall
  have hdw := dropWhile_all_append (fun c => (charDigit 16 c).isSome) (natToHex g) rest hall
  obtain ⟨htw2, hdw2⟩ := takeWhile_neg_head (fun c => (charDigit 16 c).isSome) rest hrest
  have hval : (natToHex g).foldl (fun acc c => acc * 16 + (charDigit 16 c).getD 0) 0 = g := by
    have h := natToHex_foldl (fun acc c => acc * 16 + (charDigit 16 c).getD 0)
      (fun acc d hd => by simp [(hexDigitLower_hex_facts d hd).1]) g 0
    simpa using h
  rw [readNumber]
  simp only [htw, htw2, hdw, hdw2, List.append_nil]
  split
  · rename_i hcontra
    exact absurd hcontra (natToHex_ne_nil g)
  · split
    · rename_i hcontra
      exfalso
      have := natToHex_length_le 4 g (by omega)
      omega
    · split
      · rename_i hcontra
        simp at hcontra
      · rw [hval]
        split
        · rename_i hcontra
          omega
        · rfl

theorem parseU16_natToDec (n : Nat) (h : n < 65536) : parseU16 (natToDec n) = some n := by
  have hmatch : (match natToDec n with
      | '+' :: rest => rest
      | other => other) = natToDec n := by
    cases hds : natToDec n with
    | nil => rfl
    | cons c cs =>
      obtain ⟨d, hd, rfl⟩ := natToDec_chars n c (by rw [hds]; simp)
      interval_cases d <;> rfl
  have hall : (natToDec n).all isDigitChar = true := by
    rw [List.all_eq_true]
    intro x hx
    obtain ⟨d, hd, rfl⟩ := natToDec_chars n x hx
    exact (hexDigitLower_dec_facts d hd).1
  have hval : (natToDec n).foldl (fun acc c => acc * 10 + digitVal c) 0 = n := by
    have hh := natToDec_foldl (fun acc c => acc * 10 + digitVal c)
      (fun acc d hd => by simp [(hexDigitLower_dec_facts d hd).2.1]) n 0
    simpa using hh
  rw [parseU16]
  simp only [hmatch]
  rw [if_neg (by simpa using natToDec_ne_nil n), if_pos hall, hval, if_pos (by omega)]
  intro rest hrest
  have hmem : '+' ∈ natToDec n := by rw [hrest]; simp
  obtain ⟨d, hd, hc⟩ := natToDec_chars n '+' hmem
  interval_cases d <;> exact absurd hc (by decide)

theorem natToDec_digits (n : Nat) : ∀ c ∈ natToDec n, isDigitChar c = true := by
  intro c hc
  obtain ⟨d, hd, rfl⟩ := natToDec_chars n c hc
  exact (hexDigitLower_dec_facts d hd).1

theorem natToDec_cons (n : Nat) :
    ∃ hd tl, natToDec n = hd :: tl ∧ isDigitChar hd = true := by
  cases heq : natToDec n with
  | nil => exact absurd heq (natToDec_ne_nil n)
  | cons hd tl =>
    exact ⟨hd, tl, rfl, natToDec_digits n hd (by rw [heq]; simp)⟩

theorem readIpv4Addr_display (a b c d : Nat) (ha : a < 256) (hb : b < 256)
    (hc : c < 256) (hd : d < 256) (rest : List Char)
    (hrest : ∀ ch, rest.head? = some ch → (charDigit 10 ch).isSome = false) :
    readIpv4Addr (ipv4Display a b c d ++ rest) = some ((a, b, c, d), rest) := by
  have hshape : ipv4Display a b c d ++ rest =
      natToDec a ++ ('.' :: (natToDec b ++ ('.' :: (natToDec c ++ ('.' :: (natToDec d ++ rest)))))) := by
    simp [ipv4Display]
  have hdothead : ∀ (X : List Char) ch, (('.' :: X) : List Char).head? = some ch →
      (charDigit 10 ch).isSome = false := by
    intro X ch h
    simp only [List.head?_cons, Option.some.injEq] at h
    subst h
    decide
  have h1 := readNumber_dec_natToDec a ha
    ('.' :: (natToDec b ++ ('.' :: (natToDec c ++ ('.' :: (natToDec d ++ rest))))))
    (hdothead _)
  have h2 := readNumber_dec_natToDec b hb
    ('.' :: (natToDec c ++ ('.' :: (natToDec d ++ rest)))) (hdothead _)
  have h3 := readNumber_dec_natToDec c hc ('.' :: (natToDec d ++ rest)) (hdothead _)
  have h4 := readNumber_dec_natToDec d hd rest hrest
  rw [hshape, readIpv4Addr]
  simp [readSeparator, readGivenChar, h1, h2, h3, h4]

theorem readNumber_rest (radix maxD maxV : Nat) (azp : Bool) (s : List Char)
    (v : Nat) (r : List Char)
    (h : readNumber radix maxD maxV azp s = some (v, r)) :
    r = s.dropWhile (fun c => (charDigit radix c).isSome) := by
  rw [readNumber] at h
  split at h
  · cases h
  · split at h
    · cases h
    · split at h
      · cases h
      · dsimp only at h
        split at h
        · cases h
        · simp only [Option.some.injEq, Prod.mk.injEq] at h
          exact h.2.symm

theorem readIpv4Addr_no_dot (s : List Char) (h : '.' ∉ s) : readIpv4Addr s = none := by
  rw [readIpv4Addr]
  have hsep0 : readSeparator '.' 0 (readNumber 10 3 255 false) s =
      readNumber 10 3 255 false s := by
    rw [readSeparator]
    simp
  rw [hsep0]
  cases hnum : readNumber 10 3 255 false s with
  | none => rfl
  | some p =>
    obtain ⟨a, s1⟩ := p
    have hs1 := readNumber_rest 10 3 255 false s a s1 hnum
    have hnd : '.' ∉ s1 := by
      rw [hs1]
      intro hmem
      exact h ((List.dropWhile_sublist _).subset hmem)
    have hsep : readSeparator '.' 1 (readNumber 10 3 255 false) s1 = none := by
      rw [readSeparator, if_neg (by norm_num)]
      cases hcase : s1 with
      | nil => rfl
      | cons x r =>
        rw [hcase] at hnd
        have hx : x ≠ '.' := by
          intro hx
          subst hx
          exact hnd (by simp)
        rw [readGivenChar]
        simp [hx]
    simp [hsep]

theorem looseScan_digits (k : Nat) (ds rest : List Char)
    (hds : ∀ c ∈ ds, isDigitChar c = true) (h : looseScan k rest = true) :
    looseScan k (ds ++ rest) = true := by
  induction ds with
  | nil => simpa
  | cons c cs ih =>
    have hc := hds c (by simp)
    have ih2 := ih (fun x hx => hds x (by simp [hx]))
    rw [List.cons_append]
    cases k with
    | zero =>
      rw [looseScan]
      simp [hc, ih2]
    | succ kk =>
      cases hcr : cs ++ rest with
      | nil =>
        rw [hcr] at ih2
        simp [looseScan] at ih2
      | cons d r2 =>
        rw [looseScan]
        simp [hc]
        exact Or.inl (hcr ▸ ih2)

theorem looseScan_sep (k : Nat) (c d : Char) (r2 : List Char)
    (hcnl : c ≠ '\n') (hd : isDigitChar d = true) (h : looseScan k r2 = true) :
    looseScan (k + 1) (c :: (d :: r2)) = true := by
  rw [looseScan]
  simp [hd, h, hcnl]

theorem looseScan_nil (k : Nat) : looseScan k [] = decide (k = 0) := by
  rw [looseScan]

theorem looseIpv4Match_display (a b c d : Nat) :
    looseIpv4Match (ipv4Display a b c d) = true := by
  obtain ⟨ha1, ta, hae, had⟩ := natToDec_cons a
  obtain ⟨hb1, tb, hbe, hbd⟩ := natToDec_cons b
  obtain ⟨hc1, tc, hce, hcd⟩ := natToDec_cons c
  obtain ⟨hd1, td, hde, hdd⟩ := natToDec_cons d
  have hta : ∀ x ∈ ta, isDigitChar x = true := by
    intro x hx
    exact natToDec_digits a x (by rw [hae]; simp [hx])
  have htb : ∀ x ∈ tb, isDigitChar x = true := by
    intro x hx
    exact natToDec_digits b x (by rw [hbe]; simp [hx])
  have htc : ∀ x ∈ tc, isDigitChar x = true := by
    intro x hx
    exact natToDec_digits c x (by rw [hce]; simp [hx])
  have htd : ∀ x ∈ td, isDigitChar x = true := by
    intro x hx
    exact natToDec_digits d x (by rw [hde]; simp [hx])
  have hshape : ipv4Display a b c d =
      ha1 :: (ta ++ ('.' :: (hb1 :: (tb ++ ('.' :: (hc1 :: (tc ++ ('.' :: (hd1 :: (td ++ ([] : List Char))))))))))) := by
    simp [ipv4Display, hae, hbe, hce, hde]
  rw [hshape, looseIpv4Match]
  simp only [Bool.and_eq_true]
  refine ⟨had, ?_⟩
  refine looseScan_digits 3 ta _ hta ?_
  refine looseScan_sep 2 '.' hb1 _ (by decide) hbd ?_
  refine looseScan_digits 2 tb _ htb ?_
  refine looseScan_sep 1 '.' hc1 _ (by decide) hcd ?_
  refine looseScan_digits 1 tc _ htc ?_
  refine looseScan_sep 0 '.' hd1 _ (by decide) hdd ?_
  refine looseScan_digits 0 td _ htd ?_
  rw [looseScan_nil]
  decide

theorem hostPortSplit_append (H D : List Char) (hH : H ≠ []) (hnl : '\n' ∉ H)
    (hD : D ≠ []) (hDd : ∀ c ∈ D, isDigitChar c = true) :
    hostPortSplit (H ++ ':' :: D) = some (H, D) := by
  have hrev : (H ++ ':' :: D).reverse = D.reverse ++ ':' :: H.reverse := by
    simp
  have htw : (D.reverse ++ ':' :: H.reverse).takeWhile isDigitChar = D.reverse := by
    rw [takeWhile_all_append isDigitChar D.reverse _ (by intro x hx; exact hDd x (by simpa using hx))]
    have hcolon : isDigitChar ':' = false := by decide
    simp [List.takeWhile_cons, hcolon]
  have hport : ((H ++ ':' :: D).reverse.takeWhile isDigitChar).reverse = D := by
    rw [hrev, htw, List.reverse_reverse]
  rw [hostPortSplit]
  simp only [hport]
  have hlen : (H ++ ':' :: D).length - D.length = H.length + 1 := by
    simp
    omega
  have hpre : (H ++ ':' :: D).take ((H ++ ':' :: D).length - D.length) = H ++ [':'] := by
    rw [hlen]
    have : H ++ ':' :: D = (H ++ [':']) ++ D := by simp
    rw [this]
    have hl2 : H.length + 1 = (H ++ [':']).length := by simp
    rw [hl2, List.take_left]
  rw [hpre]
  rw [if_pos ⟨hD, by simp⟩]
  simp only [List.dropLast_concat]
  rw [if_pos ⟨hH, hnl⟩]

theorem not_mem_of_class (p : Char → Bool) (l : List Char) (c : Char)
    (hall : ∀ x ∈ l, p x = true) (hc : p c = false) : c ∉ l := by
  intro hmem
  rw [hall c hmem] at hc
  cases hc

theorem dnsMatch_chars (host : List Char) (h : dnsMatch host = true) :
    host ≠ [] ∧ (∀ x ∈ host, isDnsChar x = true) := by
  cases host with
  | nil => simp [dnsMatch] at h
  | cons c r =>
    rw [dnsMatch] at h
    simp only [Bool.and_eq_true, List.all_eq_true] at h
    refine ⟨by simp, ?_⟩
    intro x hx
    rcases List.mem_cons.mp hx with rfl | hx
    · rw [isDnsChar]
      simp [h.1]
    · exact h.2 x hx

theorem parseU16_none_of_mem (s : List Char) (c : Char) (hc : c ∈ s)
    (hd : isDigitChar c = false) (hp : c ≠ '+') : parseU16 s = none := by
  have hall : ∀ t : List Char, c ∈ t → t.all isDigitChar = false := by
    intro t hct
    cases hb : t.all isDigitChar
    · rfl
    · rw [List.all_eq_true] at hb
      rw [hb c hct] at hd
      cases hd
  rcases s with _ | ⟨a, r⟩
  · cases hc
  · by_cases ha : a = '+'
    · subst ha
      have hcr : c ∈ r := by
        rcases List.mem_cons.mp hc with rfl | h
        · exact absurd rfl hp
        · exact h
      rw [parseU16]
      dsimp only
      split
      · rfl
      · rw [hall r hcr]
        simp
    · rw [parseU16]
      dsimp only
      split
      · rfl
      · rw [hall (a :: r) hc]
        simp
      · intro rest h
        injection h with h1 _
        exact absurd h1 ha

theorem looseIpv4Match_head_false (c : Char) (r : List Char)
    (h : isDigitChar c = false) : looseIpv4Match (c :: r) = false := by
  rw [looseIpv4Match]
  simp [h]

theorem bracketCapture_not_bracket (c : Char) (r : List Char) (h : c ≠ '[') :
    bracketCapture (c :: r) = none := by
  rw [bracketCapture.eq_def]
  split
  · rename_i heq
    injection heq with h1 _
    exact absurd h1 h
  · rfl

theorem bracketCapture_wrap (mid : List Char) (hne : mid ≠ [])
    (hall : mid.all isHexColon = true) :
    bracketCapture ('[' :: (mid ++ [']'])) = some mid := by
  rw [bracketCapture]
  simp [List.dropLast_concat, hne, hall]

theorem hexGroups_chars (gs : List Nat) :
    ∀ x ∈ hexGroups gs, isHexColon x = true := by
  induction gs with
  | nil => intro x hx; cases hx
  | cons g rest ih =>
    intro x hx
    cases rest with
    | nil =>
      rw [hexGroups] at hx
      obtain ⟨d, hd, rfl⟩ := natToHex_chars g x hx
      exact (hexDigitLower_hex_facts d hd).2
    | cons g2 r2 =>
      rw [hexGroups] at hx
      rcases List.mem_append.mp hx with hx | hx
      · rcases List.mem_append.mp hx with hx | hx
        · obtain ⟨d, hd, rfl⟩ := natToHex_chars g x hx
          exact (hexDigitLower_hex_facts d hd).2
        · rcases List.mem_singleton.mp hx with rfl
          decide
      · exact ih x hx
      simp

theorem hexGroups_ne_nil (g : Nat) (rest : List Nat) : hexGroups (g :: rest) ≠ [] := by
  cases rest with
  | nil =>
    rw [hexGroups]
    exact natToHex_ne_nil g
  | cons g2 r2 =>
    rw [hexGroups]
    simp [natToHex_ne_nil]
    simp

theorem ipv6Display_spec (segs : List Nat) :
    ipv6Display segs ≠ [] ∧
    (ipv6ToIpv4Mapped segs = none → ∀ x ∈ ipv6Display segs, isHexColon x = true) := by
  rw [ipv6Display]
  split
  · refine ⟨by decide, fun _ x hx => ?_⟩
    fin_cases hx <;> decide
  · split
    · refine ⟨by decide, fun _ x hx => ?_⟩
      fin_cases hx <;> decide
    · rename_i hunspec hloop
      cases hmap : ipv6ToIpv4Mapped segs with
      | some q =>
        obtain ⟨a, b, cc, dd⟩ := q
        exact ⟨by simp, fun hmap2 => absurd hmap2 (by simp)⟩
      | none =>
        dsimp only
        split
        · refine ⟨by simp, fun _ x hx => ?_⟩
          rcases List.mem_append.mp hx with hx | hx
          · rcases List.mem_append.mp hx with hx | hx
            · exact hexGroups_chars _ x hx
            · fin_cases hx <;> decide
          · exact hexGroups_chars _ x hx
        · cases hsegs : segs with
          | nil =>
            rw [hsegs] at hunspec
            simp [ipv6IsUnspecified] at hunspec
          | cons g rest =>
            exact ⟨hexGroups_ne_nil g rest, fun _ x hx => hexGroups_chars _ x hx⟩


theorem natToHex_hexColon (g : Nat) : ∀ x ∈ natToHex g, isHexColon x = true := by
  intro x hx
  obtain ⟨d, hd, rfl⟩ := natToHex_chars g x hx
  exact (hexDigitLower_hex_facts d hd).2

theorem readNumber_hex_colon_head : ∀ t : List Char,
    t = [] ∨ (∃ r2, t = ':' :: r2) → readNumber 16 4 65535 true t = none := by
  intro t ht
  rcases ht with rfl | ⟨r2, rfl⟩
  · simp [readNumber]
  · have h1 : ((charDigit 16 ':').isSome) = false := by decide
    simp [readNumber, List.takeWhile_cons, h1]

theorem readGroupsAux_stop (limit i : Nat) (term : List Char)
    (hnd : '.' ∉ term)
    (h : limit ≤ i ∨ term = [] ∨ (∃ r, term = ':' :: ':' :: r)) :
    readGroupsAux limit i term = ([], false, term) := by
  by_cases hi : i < limit
  · have hterm2 : term = [] ∨ ∃ r, term = ':' :: ':' :: r := by
      rcases h with h | h | h
      · omega
      · exact Or.inl h
      · exact Or.inr h
    have hv4 : (if i + 1 < limit then readSeparator ':' i readIpv4Addr term else none)
        = none := by
      split
      · rw [readSeparator]
        split
        · exact readIpv4Addr_no_dot term hnd
        · rcases hterm2 with rfl | ⟨r, rfl⟩
          · rfl
          · have hgc : readGivenChar ':' (':' :: ':' :: r) = some (':' :: r) := rfl
            rw [hgc]
            exact readIpv4Addr_no_dot (':' :: r)
              (fun hm => hnd (List.mem_cons_of_mem ':' hm))
      · rfl
    have hnum : readSeparator ':' i (readNumber 16 4 65535 true) term = none := by
      rw [readSeparator]
      split
      · refine readNumber_hex_colon_head term ?_
        rcases hterm2 with rfl | ⟨r, rfl⟩
        · exact Or.inl rfl
        · exact Or.inr ⟨':' :: r, rfl⟩
      · rcases hterm2 with rfl | ⟨r, rfl⟩
        · rfl
        · have hgc : readGivenChar ':' (':' :: ':' :: r) = some (':' :: r) := rfl
          rw [hgc]
          exact readNumber_hex_colon_head (':' :: r) (Or.inr ⟨r, rfl⟩)
    rw [readGroupsAux, dif_pos hi]
    dsimp only
    rw [hv4, hnum]
  · rw [readGroupsAux, dif_neg hi]

theorem readGroupsAux_run (gs : List Nat) : ∀ (g : Nat) (limit i : Nat) (term : List Char),
    i + (g :: gs).length ≤ limit → (∀ x ∈ g :: gs, x < 65536) →
    '.' ∉ term →
    (term = [] ∨ (∃ r, term = ':' :: ':' :: r)) →
    readGroupsAux limit i ((if i = 0 then [] else [':']) ++ (hexGroups (g :: gs) ++ term)) =
      (g :: gs, false, term) := by
  induction gs with
  | nil =>
    intro g limit i term hlim hg hnd hstop
    have hi : i < limit := by simp at hlim; omega
    have hbody : hexGroups [g] ++ term = natToHex g ++ term := by rw [hexGroups]
    have hnd2 : '.' ∉ natToHex g ++ term := by
      rw [List.mem_append]
      rintro (hm | hm)
      · exact absurd (natToHex_hexColon g '.' hm) (by decide)
      · exact hnd hm
    have hv4 : (if i + 1 < limit then
        readSeparator ':' i readIpv4Addr
          ((if i = 0 then [] else [':']) ++ (hexGroups [g] ++ term)) else none) = none := by
      split
      · rw [readSeparator]
        split
        · rw [List.nil_append, hbody]
          exact readIpv4Addr_no_dot _ hnd2
        · rw [hbody]
          have hgc : readGivenChar ':' ([':'] ++ (natToHex g ++ term))
              = some (natToHex g ++ term) := rfl
          rw [hgc]
          exact readIpv4Addr_no_dot _ hnd2
      · rfl
    have hrest : ∀ c, term.head? = some c → (charDigit 16 c).isSome = false := by
      intro c hcd
      rcases hstop with rfl | ⟨r, rfl⟩
      · cases hcd
      · simp only [List.head?_cons, Option.some.injEq] at hcd
        subst hcd
        decide
    have hnum : readSeparator ':' i (readNumber 16 4 65535 true)
        ((if i = 0 then [] else [':']) ++ (hexGroups [g] ++ term))
        = some (g, term) := by
      rw [readSeparator]
      split
      · rw [List.nil_append, hbody]
        exact readNumber_hex_natToHex g (hg g (by simp)) term hrest
      · rw [hbody]
        have hgc : readGivenChar ':' ([':'] ++ (natToHex g ++ term))
            = some (natToHex g ++ term) := rfl
        rw [hgc]
        exact readNumber_hex_natToHex g (hg g (by simp)) term hrest
    have htail : readGroupsAux limit (i + 1) term = ([], false, term) := by
      refine readGroupsAux_stop limit (i + 1) term hnd ?_
      rcases hstop with rfl | ⟨r, rfl⟩
      · exact Or.inr (Or.inl rfl)
      · exact Or.inr (Or.inr ⟨r, rfl⟩)
    rw [readGroupsAux, dif_pos hi]
    dsimp only
    rw [hv4, hnum]
    dsimp only
    rw [htail]
  | cons g2 r2 ih =>
    intro g limit i term hlim hg hnd hstop
    have hi : i < limit := by simp at hlim; omega
    have hbody : hexGroups (g :: g2 :: r2) ++ term
        = natToHex g ++ (':' :: (hexGroups (g2 :: r2) ++ term)) := by
      rw [hexGroups] <;> simp
    have hndg : '.' ∉ hexGroups (g2 :: r2) ++ term := by
      rw [List.mem_append]
      rintro (hm | hm)
      · exact absurd (hexGroups_chars (g2 :: r2) '.' hm) (by decide)
      · exact hnd hm
    have hnd2 : '.' ∉ natToHex g ++ (':' :: (hexGroups (g2 :: r2) ++ term)) := by
      rw [List.mem_append]
      rintro (hm | hm)
      · exact absurd (natToHex_hexColon g '.' hm) (by decide)
      · rcases List.mem_cons.mp hm with hm2 | hm2
        · cases hm2
        · exact hndg hm2
    have hv4 : (if i + 1 < limit then
        readSeparator ':' i readIpv4Addr
          ((if i = 0 then [] else [':']) ++ (hexGroups (g :: g2 :: r2) ++ term)) else none)
        = none := by
      split
      · rw [readSeparator]
        split
        · rw [List.nil_append, hbody]
          exact readIpv4Addr_no_dot _ hnd2
        · rw [hbody]
          have hgc : readGivenChar ':'
              ([':'] ++ (natToHex g ++ (':' :: (hexGroups (g2 :: r2) ++ term))))
              = some (natToHex g ++ (':' :: (hexGroups (g2 :: r2) ++ term))) := rfl
          rw [hgc]
          exact readIpv4Addr_no_dot _ hnd2
      · rfl
    have hrest : ∀ c, (':' :: (hexGroups (g2 :: r2) ++ term)).head? = some c →
        (charDigit 16 c).isSome = false := by
      intro c hcd
      simp only [List.head?_cons, Option.some.injEq] at hcd
      subst hcd
      decide
    have hnum : readSeparator ':' i (readNumber 16 4 65535 true)
        ((if i = 0 then [] else [':']) ++ (hexGroups (g :: g2 :: r2) ++ term))
        = some (g, ':' :: (hexGroups (g2 :: r2) ++ term)) := by
      rw [readSeparator]
      split
      · rw [List.nil_append, hbody]
        exact readNumber_hex_natToHex g (hg g (by simp)) _ hrest
      · rw [hbody]
        have hgc : readGivenChar ':'
            ([':'] ++ (natToHex g ++ (':' :: (hexGroups (g2 :: r2) ++ term))))
            = some (natToHex g ++ (':' :: (hexGroups (g2 :: r2) ++ term))) := rfl
        rw [hgc]
        exact readNumber_hex_natToHex g (hg g (by simp)) _ hrest
    have htail : readGroupsAux limit (i + 1) (':' :: (hexGroups (g2 :: r2) ++ term))
        = (g2 :: r2, false, term) := by
      have h2 := ih g2 limit (i + 1) term
        (by simp at hlim ⊢; omega)
        (fun x hx => hg x (by simp at hx ⊢; tauto)) hnd hstop
      rw [if_neg (by omega)] at h2
      exact h2
    rw [readGroupsAux, dif_pos hi]
    dsimp only
    rw [hv4, hnum]
    dsimp only
    rw [htail]


theorem zeroSpanStep_inv (segs : List Nat) (n a : Nat) (acc : Span × Span)
    (hget : segs[n]? = some a) (hinv : SpanInv segs n acc) :
    SpanInv segs (n + 1) (zeroSpanStep acc (n, a)) := by
  obtain ⟨h1, h2, h3, h4, h5⟩ := hinv
  rw [zeroSpanStep]
  by_cases ha : a = 0
  · subst ha
    rw [if_pos rfl]
    dsimp only
    have hcs : (if acc.2.len = 0 then n else acc.2.start) + (acc.2.len + 1) = n + 1 := by
      by_cases hz : acc.2.len = 0
      · rw [if_pos hz]
        omega
      · rw [if_neg hz]
        rcases h4 with h4 | h4
        · exact absurd h4 hz
        · omega
    have hcz : ∀ j, j < acc.2.len + 1 →
        segs[(if acc.2.len = 0 then n else acc.2.start) + j]? = some 0 := by
      by_cases hz : acc.2.len = 0
      · rw [if_pos hz]
        intro j hj
        have hj0 : j = 0 := by omega
        subst hj0
        simpa using hget
      · rw [if_neg hz]
        intro j hj
        by_cases hjl : j < acc.2.len
        · exact h5 j hjl
        · have hje : j = acc.2.len := by omega
          subst hje
          rcases h4 with h4 | h4
          · exact absurd h4 hz
          · rw [h4]
            exact hget
    refine ⟨?_, ?_, hcs.le, Or.inr hcs, hcz⟩
    · split
      · exact hcs.le
      · show acc.1.start + acc.1.len ≤ n + 1
        omega
    · split
      · exact hcz
      · intro j hj
        exact h2 j hj
  · rw [if_neg ha]
    refine ⟨?_, ?_, ?_, Or.inl rfl, ?_⟩
    · show acc.1.start + acc.1.len ≤ n + 1
      omega
    · show ∀ j, j < acc.1.len → segs[acc.1.start + j]? = some 0
      exact h2
    · show (0 : Nat) + 0 ≤ n + 1
      omega
    · intro j hj
      exact absurd hj (Nat.not_lt_zero j)

theorem zeroSpan_fold (segs : List Nat) :
    ∀ (l : List Nat) (n : Nat) (acc : Span × Span),
    segs.drop n = l → SpanInv segs n acc →
    SpanInv segs (n + l.length) ((List.enumFrom n l).foldl zeroSpanStep acc) := by
  intro l
  induction l with
  | nil =>
    intro n acc _ hinv
    simpa using hinv
  | cons a l ih =>
    intro n acc hdrop hinv
    have hget : segs[n]? = some a := by
      have h : (segs.drop n)[0]? = segs[n + 0]? := List.getElem?_drop segs n 0
      rw [hdrop] at h
      simpa using h.symm
    have hdrop2 : segs.drop (n + 1) = l := by
      rw [← List.tail_drop, hdrop]
      rfl
    have hstep := zeroSpanStep_inv segs n a acc hget hinv
    have h2 := ih (n + 1) (zeroSpanStep acc (n, a)) hdrop2 hstep
    simp only [List.enumFrom, List.foldl_cons, List.length_cons]
    have harith : n + (l.length + 1) = (n + 1) + l.length := by omega
    rw [harith]
    exact h2

theorem zeroSpan_spec (segs : List Nat) :
    (zeroSpan segs).start + (zeroSpan segs).len ≤ segs.length ∧
    ∀ j, j < (zeroSpan segs).len → segs[(zeroSpan segs).start + j]? = some 0 := by
  have hinit : SpanInv segs 0 (⟨0, 0⟩, ⟨0, 0⟩) := by
    refine ⟨Nat.le_refl 0, ?_, Nat.le_refl 0, Or.inl rfl, ?_⟩
    · intro j hj
      exact absurd hj (Nat.not_lt_zero j)
    · intro j hj
      exact absurd hj (Nat.not_lt_zero j)
  have h := zeroSpan_fold segs segs 0 (⟨0, 0⟩, ⟨0, 0⟩) rfl hinit
  rw [zeroSpan]
  obtain ⟨h1, h2, _, _, _⟩ := h
  constructor
  · simpa [List.enum] using h1
  · intro j hj
    have := h2 j (by simpa [List.enum] using hj)
    simpa [List.enum] using this


theorem readIpv6Addr_full (segs : List Nat) (hlen : segs.length = 8)
    (hg : ∀ x ∈ segs, x < 65536) :
    readIpv6Addr (hexGroups segs) = some (segs, []) := by
  cases segs with
  | nil => simp at hlen
  | cons g rest =>
    have hrun := readGroupsAux_run rest g 8 0 []
      (by simp at hlen ⊢; omega) hg (by simp) (Or.inl rfl)
    rw [if_pos rfl, List.nil_append, List.append_nil] at hrun
    rw [readIpv6Addr]
    dsimp only
    rw [hrun]
    dsimp only
    rw [if_pos hlen]

theorem readIpv6Addr_compressed (A B : List Nat) (hA : A.length ≤ 6)
    (hB : A.length + 2 + B.length ≤ 8)
    (hgA : ∀ x ∈ A, x < 65536) (hgB : ∀ x ∈ B, x < 65536) :
    readIpv6Addr (hexGroups A ++ ':' :: ':' :: hexGroups B) =
      some (A ++ List.replicate (8 - A.length - B.length) 0 ++ B, []) := by
  have hndB : '.' ∉ hexGroups B := fun hm => absurd (hexGroups_chars B '.' hm) (by decide)
  have hndT : '.' ∉ ':' :: ':' :: hexGroups B := by
    intro hm
    rcases List.mem_cons.mp hm with h | h
    · cases h
    · rcases List.mem_cons.mp h with h2 | h2
      · cases h2
      · exact hndB h2
  have hr1 : readGroupsAux 8 0 (hexGroups A ++ ':' :: ':' :: hexGroups B)
      = (A, false, ':' :: ':' :: hexGroups B) := by
    cases A with
    | nil =>
      rw [hexGroups, List.nil_append]
      exact readGroupsAux_stop 8 0 _ hndT (Or.inr (Or.inr ⟨hexGroups B, rfl⟩))
    | cons a arest =>
      have h := readGroupsAux_run arest a 8 0 (':' :: ':' :: hexGroups B)
        (by simp at hA ⊢; omega) hgA hndT (Or.inr ⟨hexGroups B, rfl⟩)
      rw [if_pos rfl, List.nil_append] at h
      exact h
  have hr2 : readGroupsAux (8 - (A.length + 1)) 0 (hexGroups B) = (B, false, []) := by
    cases B with
    | nil =>
      rw [hexGroups]
      exact readGroupsAux_stop _ 0 [] (by simp) (Or.inr (Or.inl rfl))
    | cons b brest =>
      have h := readGroupsAux_run brest b (8 - (A.length + 1)) 0 []
        (by simp at hB ⊢; omega) hgB (by simp) (Or.inl rfl)
      rw [if_pos rfl, List.nil_append, List.append_nil] at h
      exact h
  rw [readIpv6Addr]
  dsimp only
  rw [hr1]
  dsimp only
  rw [if_neg (by omega)]
  rw [if_neg (by simp)]
  have hgc1 : readGivenChar ':' (':' :: ':' :: hexGroups B) = some (':' :: hexGroups B) := rfl
  have hgc2 : readGivenChar ':' (':' :: hexGroups B) = some (hexGroups B) := rfl
  rw [hgc1]
  dsimp only
  rw [hgc2]
  dsimp only
  rw [hr2]

theorem parseIpv6_display (segs : List Nat) (hlen : segs.length = 8)
    (hbound : ∀ g ∈ segs, g < 65536) (hmap : ipv6ToIpv4Mapped segs = none) :
    parseIpv6 (ipv6Display segs) = some segs := by
  rw [ipv6Display]
  by_cases hunspec : ipv6IsUnspecified segs = true
  · rw [if_pos hunspec]
    have hsegs : segs = List.replicate 8 0 := by
      rw [List.eq_replicate]
      exact ⟨hlen, fun b hb => by simpa using (List.all_eq_true.mp hunspec) b hb⟩
    have hshape : ("::".toList : List Char) = hexGroups [] ++ ':' :: ':' :: hexGroups [] := rfl
    rw [hshape, parseIpv6, readIpv6Addr_compressed [] [] (by simp) (by simp)
      (by simp) (by simp)]
    rw [hsegs]
    decide
  · rw [if_neg hunspec]
    by_cases hloop : ipv6IsLoopback segs = true
    · rw [if_pos hloop]
      have hsegs : segs = [0, 0, 0, 0, 0, 0, 0, 1] := by
        simpa [ipv6IsLoopback] using hloop
      have hhex1 : natToHex 1 = ['1'] := by
        rw [natToHex, dif_pos (by norm_num)]
        decide
      have hshape : ("::1".toList : List Char)
          = hexGroups [] ++ ':' :: ':' :: hexGroups [1] := by
        rw [hexGroups, hexGroups, hhex1]
        decide
      rw [hshape, parseIpv6, readIpv6Addr_compressed [] [1] (by simp) (by simp)
        (by simp) (by simp)]
      rw [hsegs]
      decide
    · rw [if_neg hloop]
      rw [hmap]
      dsimp only
      obtain ⟨hzb, hzz⟩ := zeroSpan_spec segs
      rw [hlen] at hzb
      by_cases hz : 1 < (zeroSpan segs).len
      · rw [if_pos hz]
        have hAlen : (segs.take (zeroSpan segs).start).length = (zeroSpan segs).start := by
          rw [List.length_take, hlen]
          omega
        have hBlen : (segs.drop ((zeroSpan segs).start + (zeroSpan segs).len)).length
            = 8 - (zeroSpan segs).start - (zeroSpan segs).len := by
          rw [List.length_drop, hlen]
          omega
        have hmid : (segs.drop (zeroSpan segs).start).take (zeroSpan segs).len
            = List.replicate (zeroSpan segs).len 0 := by
          rw [List.eq_replicate]
          constructor
          · rw [List.length_take, List.length_drop, hlen]
            omega
          · intro b hb
            obtain ⟨j, hj⟩ := List.mem_iff_getElem?.mp hb
            obtain ⟨hlt, _⟩ := List.getElem?_eq_some.mp hj
            rw [List.length_take, List.length_drop, hlen] at hlt
            have hjlt : j < (zeroSpan segs).len := by omega
            rw [List.getElem?_take, if_pos hjlt, List.getElem?_drop] at hj
            rw [hzz j hjlt] at hj
            exact (Option.some_inj.mp hj).symm
        have hrecon : segs.take (zeroSpan segs).start
            ++ List.replicate (zeroSpan segs).len 0
            ++ segs.drop ((zeroSpan segs).start + (zeroSpan segs).len) = segs := by
          rw [← hmid]
          have h1 : (segs.drop (zeroSpan segs).start).drop (zeroSpan segs).len
              = segs.drop ((zeroSpan segs).start + (zeroSpan segs).len) := by
            rw [List.drop_drop]
          rw [List.append_assoc, ← h1, List.take_append_drop, List.take_append_drop]
        have hshape2 : hexGroups (segs.take (zeroSpan segs).start) ++ "::".toList
              ++ hexGroups (segs.drop ((zeroSpan segs).start + (zeroSpan segs).len))
            = hexGroups (segs.take (zeroSpan segs).start)
              ++ (':' :: ':' :: hexGroups
                (segs.drop ((zeroSpan segs).start + (zeroSpan segs).len))) := by
          rw [List.append_assoc]
          rfl
        rw [hshape2, parseIpv6, readIpv6Addr_compressed
          (segs.take (zeroSpan segs).start)
          (segs.drop ((zeroSpan segs).start + (zeroSpan segs).len))
          (by rw [hAlen]; omega)
          (by rw [hAlen, hBlen]; omega)
          (fun x hx => hbound x (List.take_subset _ _ hx))
          (fun x hx => hbound x (List.drop_subset _ _ hx))]
        dsimp only
        have hlen2 : 8 - (segs.take (zeroSpan segs).start).length
            - (segs.drop ((zeroSpan segs).start + (zeroSpan segs).len)).length
            = (zeroSpan segs).len := by
          rw [hAlen, hBlen]
          omega
        rw [hlen2, hrecon]
      · rw [if_neg hz]
        rw [parseIpv6, readIpv6Addr_full segs hlen hbound]


theorem parse_portOnly (port : Nat) (h : port < 65536) :
    MonetAddr.parse (natToDec port) = some (.portOnly port) := by
  have hslash : ¬(('/' ∈ natToDec port) ∨ ('\\' ∈ natToDec port)) := by
    rintro (hm | hm)
    · exact absurd (natToDec_digits port '/' hm) (by decide)
    · exact absurd (natToDec_digits port '\\' hm) (by decide)
  rw [MonetAddr.parse, if_neg hslash, parseU16_natToDec port h]

theorem parse_unix (path : List Char) (h : ('/' ∈ path) ∨ ('\\' ∈ path)) :
    MonetAddr.parse path = some (.unix path) := by
  rw [MonetAddr.parse, if_pos h]

theorem parse_dns (host : List Char) (port : Nat) (hdns : dnsMatch host = true)
    (hloose : looseIpv4Match host = false) (hport : port < 65536) :
    MonetAddr.parse (host ++ ':' :: natToDec port) = some (.dns host port) := by
  obtain ⟨hne, hchars⟩ := dnsMatch_chars host hdns
  have hslash : ¬(('/' ∈ host ++ ':' :: natToDec port) ∨
      ('\\' ∈ host ++ ':' :: natToDec port)) := by
    rintro (hm | hm)
    · rw [List.mem_append] at hm
      rcases hm with hm | hm
      · exact absurd (hchars '/' hm) (by decide)
      · rcases List.mem_cons.mp hm with h | h
        · cases h
        · exact absurd (natToDec_digits port '/' h) (by decide)
    · rw [List.mem_append] at hm
      rcases hm with hm | hm
      · exact absurd (hchars '\\' hm) (by decide)
      · rcases List.mem_cons.mp hm with h | h
        · cases h
        · exact absurd (natToDec_digits port '\\' h) (by decide)
  have hu16 : parseU16 (host ++ ':' :: natToDec port) = none :=
    parseU16_none_of_mem _ ':' (by simp) (by decide) (by decide)
  have hsplit : hostPortSplit (host ++ ':' :: natToDec port) = some (host, natToDec port) :=
    hostPortSplit_append host (natToDec port) hne
      (fun hm => absurd (hchars '\n' hm) (by decide))
      (natToDec_ne_nil port) (natToDec_digits port)
  have hbc : bracketCapture host = none := by
    cases hhost : host with
    | nil => exact absurd hhost hne
    | cons c r =>
      have hstart : isDnsStart c = true := by
        rw [hhost, dnsMatch] at hdns
        simp only [Bool.and_eq_true] at hdns
        exact hdns.1
      refine bracketCapture_not_bracket c r ?_
      intro heq
      rw [heq] at hstart
      exact absurd hstart (by decide)
  rw [MonetAddr.parse, if_neg hslash, hu16]
  dsimp only
  rw [hsplit]
  dsimp only
  rw [parseU16_natToDec port hport]
  dsimp only
  rw [hloose, if_neg (show ¬(false = true) by simp), hbc]
  dsimp only
  rw [if_pos hdns]

theorem parse_ipv4 (a b c d port : Nat) (ha : a < 256) (hb : b < 256) (hc : c < 256)
    (hd : d < 256) (hport : port < 65536) :
    MonetAddr.parse (ipv4Display a b c d ++ ':' :: natToDec port)
      = some (.ip (.v4 a b c d) port) := by
  have hchars : ∀ x ∈ ipv4Display a b c d, isDigitChar x = true ∨ x = '.' := by
    intro x hx
    rw [ipv4Display] at hx
    simp only [List.append_assoc, List.mem_append, List.mem_singleton] at hx
    rcases hx with hx | hx | hx | hx | hx | hx | hx
    · exact Or.inl (natToDec_digits a x hx)
    · exact Or.inr hx
    · exact Or.inl (natToDec_digits b x hx)
    · exact Or.inr hx
    · exact Or.inl (natToDec_digits c x hx)
    · exact Or.inr hx
    · exact Or.inl (natToDec_digits d x hx)
  have hnodig : ∀ x : Char, isDigitChar x = false → x ≠ '.' →
      x ∉ ipv4Display a b c d := by
    intro x hxd hxdot hm
    rcases hchars x hm with h | h
    · rw [h] at hxd
      cases hxd
    · exact hxdot h
  have hne : ipv4Display a b c d ≠ [] := by
    intro h
    rw [ipv4Display] at h
    simp at h
  have hslash : ¬(('/' ∈ ipv4Display a b c d ++ ':' :: natToDec port) ∨
      ('\\' ∈ ipv4Display a b c d ++ ':' :: natToDec port)) := by
    rintro (hm | hm)
    · rw [List.mem_append] at hm
      rcases hm with hm | hm
      · exact hnodig '/' (by decide) (by decide) hm
      · rcases List.mem_cons.mp hm with h | h
        · cases h
        · exact absurd (natToDec_digits port '/' h) (by decide)
    · rw [List.mem_append] at hm
      rcases hm with hm | hm
      · exact hnodig '\\' (by decide) (by decide) hm
      · rcases List.mem_cons.mp hm with h | h
        · cases h
        · exact absurd (natToDec_digits port '\\' h) (by decide)
  have hu16 : parseU16 (ipv4Display a b c d ++ ':' :: natToDec port) = none :=
    parseU16_none_of_mem _ ':' (by simp) (by decide) (by decide)
  have hsplit : hostPortSplit (ipv4Display a b c d ++ ':' :: natToDec port)
      = some (ipv4Display a b c d, natToDec port) :=
    hostPortSplit_append _ (natToDec port) hne
      (hnodig '\n' (by decide) (by decide))
      (natToDec_ne_nil port) (natToDec_digits port)
  have hp4 : parseIpv4 (ipv4Display a b c d) = some (a, b, c, d) := by
    have h := readIpv4Addr_display a b c d ha hb hc hd [] (fun ch hh => by cases hh)
    rw [List.append_nil] at h
    rw [parseIpv4, h]
  rw [MonetAddr.parse, if_neg hslash, hu16]
  dsimp only
  rw [hsplit]
  dsimp only
  rw [parseU16_natToDec port hport]
  dsimp only
  rw [looseIpv4Match_display a b c d, if_pos rfl, hp4]

theorem parse_ipv6 (segs : List Nat) (port : Nat) (hlen : segs.length = 8)
    (hbound : ∀ g ∈ segs, g < 65536) (hmap : ipv6ToIpv4Mapped segs = none)
    (hport : port < 65536) :
    MonetAddr.parse (('[' :: (ipv6Display segs ++ [']'])) ++ ':' :: natToDec port)
      = some (.ip (.v6 segs) port) := by
  obtain ⟨hne6, hchars6⟩ := ipv6Display_spec segs
  have hchars := hchars6 hmap
  have hno : ∀ x : Char, isHexColon x = false → x ≠ '[' → x ≠ ']' →
      x ∉ '[' :: (ipv6Display segs ++ [']']) := by
    intro x hxh hxl hxr hm
    rcases List.mem_cons.mp hm with h | h
    · exact hxl h
    · rw [List.mem_append] at h
      rcases h with h | h
      · rw [hchars x h] at hxh
        cases hxh
      · rcases List.mem_singleton.mp h
        exact hxr rfl
  have hslash : ¬(('/' ∈ ('[' :: (ipv6Display segs ++ [']'])) ++ ':' :: natToDec port) ∨
      ('\\' ∈ ('[' :: (ipv6Display segs ++ [']'])) ++ ':' :: natToDec port)) := by
    rintro (hm | hm)
    · rw [List.mem_append] at hm
      rcases hm with hm | hm
      · exact hno '/' (by decide) (by decide) (by decide) hm
      · rcases List.mem_cons.mp hm with h | h
        · cases h
        · exact absurd (natToDec_digits port '/' h) (by decide)
    · rw [List.mem_append] at hm
      rcases hm with hm | hm
      · exact hno '\\' (by decide) (by decide) (by decide) hm
      · rcases List.mem_cons.mp hm with h | h
        · cases h
        · exact absurd (natToDec_digits port '\\' h) (by decide)
  have hu16 : parseU16 (('[' :: (ipv6Display segs ++ [']'])) ++ ':' :: natToDec port)
      = none :=
    parseU16_none_of_mem _ ':' (by simp) (by decide) (by decide)
  have hsplit : hostPortSplit (('[' :: (ipv6Display segs ++ [']'])) ++ ':' :: natToDec port)
      = some ('[' :: (ipv6Display segs ++ [']']), natToDec port) :=
    hostPortSplit_append _ (natToDec port) (by simp)
      (hno '\n' (by decide) (by decide) (by decide))
      (natToDec_ne_nil port) (natToDec_digits port)
  have hloose : looseIpv4Match ('[' :: (ipv6Display segs ++ [']'])) = false :=
    looseIpv4Match_head_false '[' _ (by decide)
  have hbc : bracketCapture ('[' :: (ipv6Display segs ++ [']']))
      = some (ipv6Display segs) :=
    bracketCapture_wrap (ipv6Display segs) hne6 (List.all_eq_true.mpr hchars)
  rw [MonetAddr.parse, if_neg hslash, hu16]
  dsimp only
  rw [hsplit]
  dsimp only
  rw [parseU16_natToDec port hport]
  dsimp only
  rw [hloose, if_neg (show ¬(false = true) by simp), hbc]
  dsimp only
  rw [parseIpv6_display segs hlen hbound hmap]

/-- C2 (amended): parsing round-trips the display form exactly on the
canonical class of addresses — DNS hosts that match the host regex and are
not captured by the loose IPv4 regex, in-range IPv4 octets, eight-group
IPv6 addresses that are not IPv4-mapped, Unix paths containing a slash or
backslash, and ports below 65536; and every string the parser rejects
yields an `InvalidInput` error whose message is `invalid address: ` followed
by the offending input string. -/
theorem addr_round_trip :
    (∀ a : MonetAddr, canonical a →
      MonetAddr.tryFrom (MonetAddr.display a) = .ok a) ∧
    (∀ s : List Char, MonetAddr.parse s = none →
      MonetAddr.tryFrom s
        = .error ⟨.invalidInput, "invalid address: ".toList ++ s⟩) := by
  constructor
  · intro a hca
    cases a with
    | dns host port =>
      obtain ⟨h1, h2, h3⟩ := hca
      have hshape : MonetAddr.display (.dns host port)
          = host ++ ':' :: natToDec port := by
        rw [MonetAddr.display, List.append_assoc]
        rfl
      rw [MonetAddr.tryFrom, hshape, parse_dns host port h1 h2 h3]
    | ip ipa port =>
      cases ipa with
      | v4 a b c d =>
        obtain ⟨h1, h2, h3, h4, h5⟩ := hca
        have hshape : MonetAddr.display (.ip (.v4 a b c d) port)
            = ipv4Display a b c d ++ ':' :: natToDec port := by
          rw [MonetAddr.display, List.append_assoc]
          rfl
        rw [MonetAddr.tryFrom, hshape, parse_ipv4 a b c d port h1 h2 h3 h4 h5]
      | v6 segs =>
        obtain ⟨h1, h2, h3, h4⟩ := hca
        have hshape : MonetAddr.display (.ip (.v6 segs) port)
            = ('[' :: (ipv6Display segs ++ [']'])) ++ ':' :: natToDec port := by
          rw [MonetAddr.display]
          simp
        rw [MonetAddr.tryFrom, hshape, parse_ipv6 segs port h1 h2 h3 h4]
    | unix path =>
      rw [MonetAddr.tryFrom, MonetAddr.display, parse_unix path hca]
    | portOnly port =>
      rw [MonetAddr.tryFrom, MonetAddr.display, parse_portOnly port hca]
  · intro s hs
    rw [MonetAddr.tryFrom, hs]

/-- C2 counterexample: the IPv4-mapped IPv6 address `::ffff:1.2.3.4` — a
perfectly valid `Ipv6Addr` — displays as `[::ffff:1.2.3.4]:80`, and that
string does not parse back to the address (the bracket capture rejects the
dots of the embedded dotted-decimal form), so the round trip fails outside
the canonical class. -/
theorem addr_round_trip_counterexample :
    MonetAddr.display (.ip (.v6 [0, 0, 0, 0, 0, 0xFFFF, 0x0102, 0x0304]) 80)
      = "[::ffff:1.2.3.4]:80".toList ∧
    MonetAddr.tryFrom ("[::ffff:1.2.3.4]:80".toList)
      = .error ⟨.invalidInput,
          "invalid address: ".toList ++ "[::ffff:1.2.3.4]:80".toList⟩ := by
  have h1 : natToDec 1 = ['1'] := by
    rw [natToDec, dif_pos (by norm_num)]
    decide
  have h2 : natToDec 2 = ['2'] := by
    rw [natToDec, dif_pos (by norm_num)]
    decide
  have h3 : natToDec 3 = ['3'] := by
    rw [natToDec, dif_pos (by norm_num)]
    decide
  have h4 : natToDec 4 = ['4'] := by
    rw [natToDec, dif_pos (by norm_num)]
    decide
  have h80 : natToDec 80 = ['8', '0'] := by
    rw [natToDec, dif_neg (by norm_num)]
    norm_num
    rw [natToDec, dif_pos (by norm_num)]
    decide
  constructor
  · rw [MonetAddr.display]
    have hipv6 : ipv6Display [0, 0, 0, 0, 0, 0xFFFF, 0x0102, 0x0304]
        = "::ffff:1.2.3.4".toList := by
      rw [ipv6Display, if_neg (by decide), if_neg (by decide)]
      rw [show ipv6ToIpv4Mapped [0, 0, 0, 0, 0, 0xFFFF, 0x0102, 0x0304]
        = some (1, 2, 3, 4) from rfl]
      dsimp only
      rw [ipv4Display, h1, h2, h3, h4]
      decide
    rw [hipv6, h80]
    decide
  · have hp : MonetAddr.parse ("[::ffff:1.2.3.4]:80".toList) = none := by decide
    rw [MonetAddr.tryFrom, hp]

/-- Witness for C2's amended theorem: a concrete DNS host and a concrete
rejected input. -/
theorem addr_round_trip_witness :
    canonical (.dns ['d', 'b'] 80) ∧
    MonetAddr.tryFrom (MonetAddr.display (.dns ['d', 'b'] 80))
      = .ok (.dns ['d', 'b'] 80) ∧
    MonetAddr.parse ['@'] = none ∧
    MonetAddr.tryFrom ['@']
      = .error ⟨.invalidInput, "invalid address: ".toList ++ ['@']⟩ :=
  ⟨⟨by decide, by decide, by decide⟩,
    addr_round_trip.1 _ ⟨by decide, by decide, by decide⟩, by decide,
    addr_round_trip.2 _ (by decide)⟩


end MProxy
